import Mathlib

/-!
Verification development for the log-structured key-value store in src/src/kv.rs
(with the sled-backed alternative engine in src/src/engines/sled.rs).

Modelling conventions
- Segment files are modelled as streams of characters (`List Char`); offsets and
  record lengths count positions in that stream.  This matches the source's use
  of byte offsets over serde_json's textual encoding, with each code unit of the
  JSON text modelled as one position.
- The Rust HashMaps (readers, index, files-on-disk) are modelled as association
  lists in insertion order.  Rust's HashMap iteration order is unspecified; the
  model fixes it to list order.  HashMap::insert replaces in place,
  HashMap::remove deletes, exactly as `aupdate` and `aerase` do on lists with
  no duplicate keys.
- Rust panics (the `.expect(..)` calls on missing readers) are modelled by
  `Option`: `none` means the process aborted.
- I/O never fails in the model; serde decode failures are the `serde` error.
-/

/-! ## Association lists (model of std::collections::HashMap) -/

def alookup {α β : Type} [DecidableEq α] : List (α × β) → α → Option β
  | [], _ => none
  | (x, b) :: rest, a => if x = a then some b else alookup rest a

def aupdate {α β : Type} [DecidableEq α] : List (α × β) → α → β → List (α × β)
  | [], a, b => [(a, b)]
  | (x, c) :: rest, a, b => if x = a then (a, b) :: rest else (x, c) :: aupdate rest a b

def aerase {α β : Type} [DecidableEq α] : List (α × β) → α → List (α × β)
  | [], _ => []
  | (x, c) :: rest, a => if x = a then rest else (x, c) :: aerase rest a

def akeys {α β : Type} (l : List (α × β)) : List α := l.map Prod.fst

/-! ## The command record codec (model of serde_json on enum Command)

serde_json serializes the externally tagged enum `Command` as
the text &lbrace;"Set":&lbrace;"key":K,"value":V&rbrace;&rbrace; or
&lbrace;"Remove":&lbrace;"key":K&rbrace;&rbrace;, where K and V are JSON string
literals with the standard escapes.  The parser below accepts exactly the
texts the encoder produces (serde_json additionally tolerates whitespace
between tokens, which the engine never writes). -/

inductive Command : Type where
  | set (key value : String) : Command
  | remove (key : String) : Command
deriving DecidableEq, Repr

def hexDigit (n : Nat) : Char :=
  if n < 10 then Char.ofNat (48 + n) else Char.ofNat (87 + n)

def parseHex (c : Char) : Option Nat :=
  if 48 ≤ c.toNat ∧ c.toNat ≤ 57 then some (c.toNat - 48)
  else if 97 ≤ c.toNat ∧ c.toNat ≤ 102 then some (c.toNat - 87)
  else if 65 ≤ c.toNat ∧ c.toNat ≤ 70 then some (c.toNat - 55)
  else none

def escChar (c : Char) : List Char :=
  if c = '"' then ['\\', '"']
  else if c = '\\' then ['\\', '\\']
  else if c = '\x08' then ['\\', 'b']
  else if c = '\x0c' then ['\\', 'f']
  else if c = '\n' then ['\\', 'n']
  else if c = '\r' then ['\\', 'r']
  else if c = '\t' then ['\\', 't']
  else if c.toNat < 32 then ['\\', 'u', '0', '0', hexDigit (c.toNat / 16), hexDigit (c.toNat % 16)]
  else [c]

def escList (l : List Char) : List Char := l.flatMap escChar

/-- A JSON string literal: quote, escaped characters, quote. -/
def jstr (s : String) : List Char := '"' :: escList s.data ++ ['"']

/-- The text between the start of a Set record and its key string. -/
def setHeader : List Char :=
  ['\x7b', '"', 'S', 'e', 't', '"', ':', '\x7b', '"', 'k', 'e', 'y', '"', ':']

/-- The text between the key string and the value string of a Set record. -/
def valueSep : List Char :=
  [',', '"', 'v', 'a', 'l', 'u', 'e', '"', ':']

/-- The text between the start of a Remove record and its key string. -/
def removeHeader : List Char :=
  ['\x7b', '"', 'R', 'e', 'm', 'o', 'v', 'e', '"', ':', '\x7b', '"', 'k', 'e', 'y', '"', ':']

def closeBraces : List Char := ['\x7d', '\x7d']

/-- serde_json::to_writer on a Command value. -/
def encodeCommand : Command → List Char
  | .set k v => setHeader ++ jstr k ++ valueSep ++ jstr v ++ closeBraces
  | .remove k => removeHeader ++ jstr k ++ closeBraces

/-- Expect a literal character sequence, returning the rest of the input. -/
def expectChars : List Char → List Char → Option (List Char)
  | [], input => some input
  | _ :: _, [] => none
  | l :: ls, c :: cs => if c = l then expectChars ls cs else none

/-- Parse the body of a JSON string literal (after the opening quote),
accumulating decoded characters in reverse. -/
def jstrBody (acc : List Char) : List Char → Option (String × List Char)
  | [] => none
  | '"' :: rest => some (String.mk acc.reverse, rest)
  | '\\' :: rest =>
    match rest with
    | [] => none
    | 'u' :: h1 :: h2 :: h3 :: h4 :: rest' =>
      match parseHex h1, parseHex h2, parseHex h3, parseHex h4 with
      | some a, some b, some c, some d =>
        let n := 4096 * a + 256 * b + 16 * c + d
        if n < 55296 then jstrBody (Char.ofNat n :: acc) rest' else none
      | _, _, _, _ => none
    | e :: rest' =>
      if e = '"' then jstrBody ('"' :: acc) rest'
      else if e = '\\' then jstrBody ('\\' :: acc) rest'
      else if e = '/' then jstrBody ('/' :: acc) rest'
      else if e = 'b' then jstrBody ('\x08' :: acc) rest'
      else if e = 'f' then jstrBody ('\x0c' :: acc) rest'
      else if e = 'n' then jstrBody ('\n' :: acc) rest'
      else if e = 'r' then jstrBody ('\r' :: acc) rest'
      else if e = 't' then jstrBody ('\t' :: acc) rest'
      else none
  | c :: rest => if c.toNat < 32 then none else jstrBody (c :: acc) rest

/-- Parse a JSON string literal including its opening quote. -/
def parseJString : List Char → Option (String × List Char)
  | '"' :: rest => jstrBody [] rest
  | _ => none

/-- Parse one serialized Command record, returning it and the remaining input. -/
def parseCommand (input : List Char) : Option (Command × List Char) :=
  match expectChars setHeader input with
  | some r1 =>
    match parseJString r1 with
    | some (k, r2) =>
      match expectChars valueSep r2 with
      | some r3 =>
        match parseJString r3 with
        | some (v, r4) =>
          match expectChars closeBraces r4 with
          | some r5 => some (Command.set k v, r5)
          | none => none
        | none => none
      | none => none
    | none => none
  | none =>
    match expectChars removeHeader input with
    | some r1 =>
      match parseJString r1 with
      | some (k, r2) =>
        match expectChars closeBraces r2 with
        | some r3 => some (Command.remove k, r3)
        | none => none
      | none => none
    | none => none

def isJsonWs (c : Char) : Bool :=
  c = ' ' || c = '\t' || c = '\n' || c = '\r'

/-- serde_json::from_reader on a bounded view: one value followed by nothing
but whitespace up to the end of the view. -/
def decodeOne (chars : List Char) : Option Command :=
  match parseCommand chars with
  | some (c, rest) => if rest.all isJsonWs then some c else none
  | none => none

/-! ## Errors (model of src/src/error.rs, enum KvsError) -/

inductive KvsError : Type where
  | io : KvsError
  | serde : KvsError
  | keyNotFound : KvsError
  | unexpectedCommandType : KvsError
  | stringError (msg : String) : KvsError
  | utf8 : KvsError
  | sled : KvsError
deriving DecidableEq, Repr

/-! ## Positioned readers and writers (model of BufferReaderWithPos / BufferWriterWithPos) -/

/-- Position and length of a serialized command in the log (struct CommandPos). -/
structure CommandPos : Type where
  gen : Nat
  start : Nat
  length : Nat
deriving DecidableEq, Repr

/-- CommandPos::new(gen, start, end) stores length = end - start. -/
def CommandPos.new (gen start endPos : Nat) : CommandPos :=
  { gen := gen, start := start, length := endPos - start }

/-- A BufferReaderWithPos over one segment file.  `pos` is the tracked field of
the Rust struct; `cursor` models the current offset of the underlying buffered
handle, which the struct itself does not store. -/
structure Reader : Type where
  pos : Nat
  cursor : Nat
deriving DecidableEq, Repr

/-- Seek to an absolute offset: the Seek impl stores the seek result in pos. -/
def Reader.seekTo (_ : Reader) (target : Nat) : Reader :=
  { pos := target, cursor := target }

/-- The characters a bounded read of `amount` starting at `cursor` yields. -/
def readAt (file : List Char) (cursor amount : Nat) : List Char :=
  (file.drop cursor).take amount

/-- reader.take(amount) followed by reading it to the end.  The Read impl of
BufferReaderWithPos advances the underlying handle but leaves `pos` unchanged:
the source has the update of `pos` commented out (src/src/kv.rs line 395). -/
def Reader.readTake (r : Reader) (file : List Char) (amount : Nat) : Reader × List Char :=
  let data := readAt file r.cursor amount
  ({ pos := r.pos, cursor := r.cursor + data.length }, data)

/-! ## The log-structured engine (model of struct KvStore in src/src/kv.rs) -/

/-- Engine state.  `files` is the base directory: generation number to segment
content.  C8 models the file-name handling of sorted_gen_list separately; at
engine level segment <gen>.log is keyed by gen.  `writerPos` is writer.pos. -/
structure KvStore : Type where
  currentGen : Nat
  readers : List (Nat × Reader)
  writerPos : Nat
  index : List (String × CommandPos)
  uncompacted : Nat
  files : List (Nat × List Char)
deriving DecidableEq, Repr

def COMPACTION_THRESHOLD : Nat := 1024 * 1024

def fileOf (files : List (Nat × List Char)) (gen : Nat) : List Char :=
  (alookup files gen).getD []

/-- fn new_log_file: open <gen>.log with create+append for writing and insert a
fresh reader for it.  A fresh File handle starts at offset 0, and for an
append-mode handle seek(Current(0)) also reports 0, so the writer position
starts at 0 (the file is empty whenever this is reached by the engine). -/
def newLogFile (files : List (Nat × List Char)) (readers : List (Nat × Reader))
    (gen : Nat) : List (Nat × List Char) × List (Nat × Reader) × Nat :=
  let content := fileOf files gen
  (aupdate files gen content, aupdate readers gen { pos := 0, cursor := 0 }, 0)

/-- fn load: replay one segment from offset 0, accumulating index entries and
the stale-byte count.  Fuel bounds the recursion; each parsed record consumes
at least one character, so fuel = content length + 1 never runs out (the
exhausted case is mapped to the serde error, like any failed parse). -/
def runLoad (gen : Nat) : Nat → List Char → Nat → List (String × CommandPos) → Nat →
    Except KvsError (List (String × CommandPos) × Nat)
  | 0, _, _, _, _ => .error .serde
  | _ + 1, [], _, index, unc => .ok (index, unc)
  | fuel + 1, c :: cs, pos, index, unc =>
    match parseCommand (c :: cs) with
    | none => .error .serde
    | some (cmd, rest) =>
      let nextPos := pos + ((c :: cs).length - rest.length)
      match cmd with
      | .set k _ =>
        let unc' := match alookup index k with
          | some old => unc + old.length
          | none => unc
        runLoad gen fuel rest nextPos (aupdate index k (CommandPos.new gen pos nextPos)) unc'
      | .remove k =>
        let unc' := match alookup index k with
          | some old => unc + old.length
          | none => unc
        runLoad gen fuel rest nextPos (aerase index k) (unc' + (nextPos - pos))

/-- The replay loop of KvStore::open over the sorted generation list.  After a
successful load the segment's reader sits at pos 0 (the seek at the start of
load) with its underlying handle at end of file (the stream consumed it). -/
def openLoop (files : List (Nat × List Char)) :
    List Nat → List (Nat × Reader) → List (String × CommandPos) → Nat →
    Except KvsError (List (Nat × Reader) × List (String × CommandPos) × Nat)
  | [], readers, index, unc => .ok (readers, index, unc)
  | gen :: gens, readers, index, unc =>
    let content := fileOf files gen
    match runLoad gen (content.length + 1) content 0 index 0 with
    | .error e => .error e
    | .ok (index', du) =>
      openLoop files gens (aupdate readers gen { pos := 0, cursor := content.length })
        index' (unc + du)

/-- KvStore::open on a base directory. -/
def openStore (files : List (Nat × List Char)) : Except KvsError KvStore :=
  let genList := List.insertionSort (· ≤ ·) (akeys files)
  match openLoop files genList [] [] 0 with
  | .error e => .error e
  | .ok (readers, index, uncompacted) =>
    let currentGen := genList.getLast?.getD 0 + 1
    let (files', readers', wpos) := newLogFile files readers currentGen
    .ok { currentGen := currentGen, readers := readers', writerPos := wpos,
          index := index, uncompacted := uncompacted, files := files' }

/-- One iteration of the compaction loop: read the live record of one index
entry and copy it to the compaction segment, rewriting the entry.  The seek is
skipped when the entry's start equals the reader's tracked pos; reading then
starts from the underlying handle's cursor, wherever it is.  Returns none when
a reader is missing (the source panics there). -/
def compactLoop (cgen : Nat) :
    List (String × CommandPos) → List (Nat × Reader) → List (Nat × List Char) → Nat →
    Option (List (String × CommandPos) × List (Nat × Reader) × List (Nat × List Char) × Nat)
  | [], readers, files, nextPos => some ([], readers, files, nextPos)
  | (k, cp) :: rest, readers, files, nextPos =>
    match alookup readers cp.gen with
    | none => none
    | some r =>
      let r1 := if cp.start ≠ r.pos then r.seekTo cp.start else r
      let (r2, data) := r1.readTake (fileOf files cp.gen) cp.length
      let len := data.length
      let readers' := aupdate readers cp.gen r2
      let files' := aupdate files cgen (fileOf files cgen ++ data)
      let cp' := CommandPos.new cgen nextPos (nextPos + len)
      match compactLoop cgen rest readers' files' (nextPos + len) with
      | none => none
      | some (restIdx, rs, fs, np) => some ((k, cp') :: restIdx, rs, fs, np)

/-- KvStore::compact. -/
def KvStore.compact (s : KvStore) : Option KvStore :=
  let compactionGen := s.currentGen + 1
  let curGen' := s.currentGen + 2
  let (files1, readers1, wpos') := newLogFile s.files s.readers curGen'
  let (files2, readers2, _) := newLogFile files1 readers1 compactionGen
  match compactLoop compactionGen s.index readers2 files2 0 with
  | none => none
  | some (index', readers', files', _) =>
    let staleGens := (akeys readers').filter (fun g => g < compactionGen)
    let readers'' := staleGens.foldl (fun m g => aerase m g) readers'
    let files'' := staleGens.foldl (fun m g => aerase m g) files'
    some { currentGen := curGen', readers := readers'', writerPos := wpos',
           index := index', uncompacted := 0, files := files'' }

/-- KvStore::set: append the serialized Set record to the active segment,
flush, update the index (adding a superseded entry's length to uncompacted),
then compact when uncompacted exceeds the threshold. -/
def KvStore.set (s : KvStore) (key value : String) : Option KvStore :=
  let record := encodeCommand (Command.set key value)
  let pos := s.writerPos
  let files' := aupdate s.files s.currentGen (fileOf s.files s.currentGen ++ record)
  let wpos' := pos + record.length
  let unc' := match alookup s.index key with
    | some old => s.uncompacted + old.length
    | none => s.uncompacted
  let t : KvStore :=
    { currentGen := s.currentGen, readers := s.readers, writerPos := wpos',
      index := aupdate s.index key (CommandPos.new s.currentGen pos wpos'),
      uncompacted := unc', files := files' }
  if t.uncompacted > COMPACTION_THRESHOLD then t.compact else some t

/-- KvStore::get: follow the index entry, seek its reader to the record start,
read a view of exactly `length` characters and decode it.  Returns none when
the reader for the entry's generation is missing (the source panics there). -/
def KvStore.get (s : KvStore) (key : String) :
    Option (Except KvsError (Option String) × KvStore) :=
  match alookup s.index key with
  | none => some (.ok none, s)
  | some cp =>
    match alookup s.readers cp.gen with
    | none => none
    | some r =>
      let r1 := r.seekTo cp.start
      let (r2, data) := r1.readTake (fileOf s.files cp.gen) cp.length
      let s' := { s with readers := aupdate s.readers cp.gen r2 }
      match decodeOne data with
      | some (.set _ v) => some (.ok (some v), s')
      | some (.remove _) => some (.error .unexpectedCommandType, s')
      | none => some (.error .serde, s')

/-- KvStore::remove: KeyNotFound on absent keys; otherwise append the Remove
record, flush, drop the index entry and add its length to uncompacted.  The
inner expect of the source cannot fail (contains_key was just checked), so the
operation never panics. -/
def KvStore.remove (s : KvStore) (key : String) : Except KvsError Unit × KvStore :=
  match alookup s.index key with
  | none => (.error .keyNotFound, s)
  | some old =>
    let record := encodeCommand (Command.remove key)
    let files' := aupdate s.files s.currentGen (fileOf s.files s.currentGen ++ record)
    let s' : KvStore :=
      { s with files := files', writerPos := s.writerPos + record.length,
               index := aerase s.index key, uncompacted := s.uncompacted + old.length }
    (.ok (), s')

/-! ## Directory listing (model of fn sorted_gen_list in src/src/kv.rs)

A directory entry is a file name together with whether it is a regular file.
The engine-level `files` field identifies segment <gen>.log with its gen; the
functions below model the actual name handling of sorted_gen_list. -/

/-- Path::extension of a file name: split at the last dot; None when there is
no dot or when the only dot is the leading character of the name. -/
def splitLastDot (l : List Char) : Option (List Char × List Char) :=
  match l.reverse.span (fun c => c != '.') with
  | (_, []) => none
  | (afterRev, _ :: beforeRev) =>
    if beforeRev.isEmpty then none else some (beforeRev.reverse, afterRev.reverse)

def extensionOf (name : String) : Option (List Char) :=
  (splitLastDot name.data).map Prod.snd

/-- str::trim_end_matches(".log") on a reversed character list: repeatedly
strip the (reversed) suffix. -/
def trimRev : List Char → List Char
  | 'g' :: 'o' :: 'l' :: '.' :: rest => trimRev rest
  | l => l

def trimEndLog (l : List Char) : List Char := (trimRev l.reverse).reverse

def digitsAux (acc : Nat) : List Char → Option Nat
  | [] => some acc
  | c :: cs => if c.isDigit then digitsAux (10 * acc + (c.toNat - 48)) cs else none

/-- str::parse::<u64>: an optional leading plus sign, then one or more ASCII
digits, rejecting values outside the u64 range. -/
def parseU64 (l : List Char) : Option Nat :=
  let body := match l with
    | '+' :: rest => rest
    | _ => l
  match body with
  | [] => none
  | _ :: _ =>
    match digitsAux 0 body with
    | some n => if n < 2 ^ 64 then some n else none
    | none => none

/-- The generation number sorted_gen_list extracts from one directory entry:
regular file, extension log, then parse the name with every trailing ".log"
stripped. -/
def genOfName (name : String) (isFile : Bool) : Option Nat :=
  if isFile ∧ extensionOf name = some ['l', 'o', 'g'] then parseU64 (trimEndLog name.data)
  else none

/-- fn sorted_gen_list. -/
def sortedGenList (entries : List (String × Bool)) : List Nat :=
  List.insertionSort (· ≤ ·) (entries.filterMap (fun e => genOfName e.1 e.2))

/-- Modelled from the spec: a file name "matches &lt;decimal&gt;.log" — one or
more decimal digits followed by the single literal suffix ".log" — and the
digits parse as a u64.  Used to compare the spec's description of
sorted_gen_list with the code's behavior. -/
def specDecimalLog (name : String) : Option Nat :=
  match name.data.reverse with
  | 'g' :: 'o' :: 'l' :: '.' :: digitsRev =>
    let ds := digitsRev.reverse
    if ds ≠ [] ∧ ds.all Char.isDigit then
      match digitsAux 0 ds with
      | some n => if n < 2 ^ 64 then some n else none
      | none => none
    else none
  | _ => none

/-- Modelled from the spec: sorted_generations as §4.3 describes it, keeping
exactly the regular files whose name matches &lt;decimal&gt;.log. -/
def specSortedGenList (entries : List (String × Bool)) : List Nat :=
  List.insertionSort (· ≤ ·)
    (entries.filterMap (fun e => if e.2 then specDecimalLog e.1 else none))

/-! ## The sled-backed engine (model of src/src/engines/sled.rs)

The embedded sled database is external to the repository; its Tree is modelled
as a map from keys to values, with Tree::remove returning the previous value.
Values are stored as UTF-8 bytes and decoded back on get; the model keeps them
as the strings they encode. -/

structure SledKvsEngine : Type where
  db : List (String × String)
deriving DecidableEq, Repr

def SledKvsEngine.set (e : SledKvsEngine) (key value : String) : SledKvsEngine :=
  { db := aupdate e.db key value }

def SledKvsEngine.get (e : SledKvsEngine) (key : String) : Option String :=
  alookup e.db key

/-- SledKvsEngine::remove: Tree::remove returns the old value, ok_or turns
None into KeyNotFound before the flush is reached. -/
def SledKvsEngine.remove (e : SledKvsEngine) (key : String) :
    Except KvsError Unit × SledKvsEngine :=
  match alookup e.db key with
  | some _ => (.ok (), { db := aerase e.db key })
  | none => (.error .keyNotFound, e)

/-! ## Reachable engine states

A state is reachable when it arises from opening a fresh (empty) directory and
then running any sequence of set / get / remove operations, including closing
the engine and reopening the directory it produced. -/

inductive Reachable : KvStore → Prop where
  | openInit : ∀ s, openStore [] = .ok s → Reachable s
  | reopen : ∀ t s, Reachable t → openStore t.files = .ok s → Reachable s
  | doSet : ∀ t s k v, Reachable t → t.set k v = some s → Reachable s
  | doGet : ∀ t s k r, Reachable t → t.get k = some (r, s) → Reachable s
  | doRemove : ∀ t s k r, Reachable t → t.remove k = (r, s) → Reachable s

/-- State invariant maintained by every reachable state. -/
structure EngineInv (s : KvStore) : Prop where
  wpos : s.writerPos = (fileOf s.files s.currentGen).length
  readerBound : ∀ g r, alookup s.readers g = some r →
    r.pos ≤ r.cursor ∧ r.cursor ≤ (fileOf s.files g).length
  curReader : ∃ r, alookup s.readers s.currentGen = some r
  entryBound : ∀ k cp, alookup s.index k = some cp →
    cp.start + cp.length ≤ (fileOf s.files cp.gen).length ∧
    ∃ r, alookup s.readers cp.gen = some r
  curEntry : ∀ k cp, alookup s.index k = some cp → cp.gen = s.currentGen → 1 ≤ cp.length
  readerGens : ∀ g, g ∈ akeys s.readers → g ≤ s.currentGen
  fileGens : ∀ g, g ∈ akeys s.files → g ≤ s.currentGen
  indexNodup : (akeys s.index).Nodup
  readersNodup : (akeys s.readers).Nodup
  filesNodup : (akeys s.files).Nodup

/-! ## Concrete scenario: open, set, reopen, compact

Starting from a fresh directory: set("a","x"), close, reopen, then compact.
After the reopen the reader of segment 1 has pos 0 (from the seek at the start
of replay) while its underlying handle sits at end of file; compaction then
skips the seek for the entry of "a" (start 0 = pos 0) and copies 0 characters
from EOF, rewriting the index entry of "a" to length 0. -/

def dummyStore : KvStore :=
  { currentGen := 0, readers := [], writerPos := 0, index := [], uncompacted := 0, files := [] }

def storeA : KvStore :=
  match openStore [] with
  | .ok s => s
  | .error _ => dummyStore

def storeB : KvStore := (storeA.set "a" "x").getD dummyStore

def storeC : KvStore :=
  match openStore storeB.files with
  | .ok s => s
  | .error _ => dummyStore

def storeD : KvStore := storeC.compact.getD dummyStore

def storeE : KvStore :=
  match openStore storeD.files with
  | .ok s => s
  | .error _ => dummyStore

/-- The engine state after KvStore::set has appended its record, flushed, and
updated index and uncompacted (steps 1-3 of the operation), before the
compaction check. -/
def setNoCompact (s : KvStore) (key value : String) : KvStore :=
  let record := encodeCommand (Command.set key value)
  let pos := s.writerPos
  { currentGen := s.currentGen, readers := s.readers, writerPos := pos + record.length,
    index := aupdate s.index key (CommandPos.new s.currentGen pos (pos + record.length)),
    uncompacted := match alookup s.index key with
      | some old => s.uncompacted + old.length
      | none => s.uncompacted,
    files := aupdate s.files s.currentGen (fileOf s.files s.currentGen ++ record) }

/-- A concrete engine state holding one key whose uncompacted counter is just
below the compaction threshold. -/
def nearThresholdStore : KvStore :=
  { currentGen := 1, readers := [(1, { pos := 0, cursor := 0 })], writerPos := 31,
    index := [("a", { gen := 1, start := 0, length := 31 })], uncompacted := 1048570,
    files := [(1, encodeCommand (Command.set "a" "x"))] }

/-! ## Lemmas about association lists -/

theorem akeys_cons {α β : Type} (y : α) (c : β) (tl : List (α × β)) :
    akeys ((y, c) :: tl) = y :: akeys tl := rfl

theorem alookup_aupdate_self {α β : Type} [DecidableEq α] (l : List (α × β)) (a : α) (b : β) :
    alookup (aupdate l a b) a = some b := by
  induction l with
  | nil => simp [aupdate, alookup]
  | cons hd tl ih =>
    obtain ⟨x, c⟩ := hd
    by_cases hx : x = a
    · simp [aupdate, hx, alookup]
    · simp [aupdate, hx, alookup, ih]

theorem alookup_aupdate_ne {α β : Type} [DecidableEq α] (l : List (α × β)) (a x : α) (b : β)
    (h : x ≠ a) : alookup (aupdate l a b) x = alookup l x := by
  induction l with
  | nil => simp [aupdate, alookup, Ne.symm h]
  | cons hd tl ih =>
    obtain ⟨y, c⟩ := hd
    by_cases hy : y = a
    · subst hy
      simp [aupdate, alookup, Ne.symm h]
    · simp [aupdate, hy, alookup, ih]

theorem alookup_aerase_ne {α β : Type} [DecidableEq α] (l : List (α × β)) (a x : α)
    (h : x ≠ a) : alookup (aerase l a) x = alookup l x := by
  induction l with
  | nil => simp [aerase]
  | cons hd tl ih =>
    obtain ⟨y, c⟩ := hd
    by_cases hy : y = a
    · subst hy
      simp [aerase, alookup, Ne.symm h]
    · simp [aerase, hy, alookup, ih]

theorem mem_akeys_of_alookup {α β : Type} [DecidableEq α] {l : List (α × β)} {a : α} {b : β}
    (h : alookup l a = some b) : a ∈ akeys l := by
  induction l with
  | nil => simp [alookup] at h
  | cons hd tl ih =>
    obtain ⟨y, c⟩ := hd
    by_cases hy : y = a
    · simp [akeys_cons, hy]
    · simp only [alookup, if_neg hy] at h
      simp only [akeys_cons, List.mem_cons]
      exact Or.inr (ih h)

theorem alookup_eq_none {α β : Type} [DecidableEq α] {l : List (α × β)} {a : α}
    (h : a ∉ akeys l) : alookup l a = none := by
  induction l with
  | nil => rfl
  | cons hd tl ih =>
    obtain ⟨y, c⟩ := hd
    simp only [akeys_cons, List.mem_cons, not_or] at h
    simp [alookup, Ne.symm h.1, ih h.2]

theorem alookup_aerase_self {α β : Type} [DecidableEq α] {l : List (α × β)} {a : α}
    (h : (akeys l).Nodup) : alookup (aerase l a) a = none := by
  induction l with
  | nil => rfl
  | cons hd tl ih =>
    obtain ⟨y, c⟩ := hd
    rw [akeys_cons, List.nodup_cons] at h
    by_cases hy : y = a
    · subst hy
      simp only [aerase, if_pos rfl]
      exact alookup_eq_none h.1
    · simp [aerase, hy, alookup, hy, ih h.2]

theorem mem_akeys_aupdate {α β : Type} [DecidableEq α] (l : List (α × β)) (a x : α) (b : β) :
    x ∈ akeys (aupdate l a b) ↔ x ∈ akeys l ∨ x = a := by
  induction l with
  | nil => simp [aupdate, akeys]
  | cons hd tl ih =>
    obtain ⟨y, c⟩ := hd
    by_cases hy : y = a
    · subst hy
      simp [aupdate, akeys_cons]
      tauto
    · simp only [aupdate, if_neg hy, akeys_cons, List.mem_cons, ih]
      tauto

theorem akeys_aupdate_of_mem {α β : Type} [DecidableEq α] {l : List (α × β)} {a : α} (b : β)
    (h : a ∈ akeys l) : akeys (aupdate l a b) = akeys l := by
  induction l with
  | nil => simp [akeys] at h
  | cons hd tl ih =>
    obtain ⟨y, c⟩ := hd
    by_cases hy : y = a
    · subst hy
      simp [aupdate, akeys_cons]
    · have h' : a ∈ akeys tl := by
        rcases (by simpa only [akeys_cons, List.mem_cons] using h : a = y ∨ a ∈ akeys tl) with
          h' | h'
        · exact absurd h'.symm hy
        · exact h'
      simp only [aupdate, if_neg hy, akeys_cons, ih h']

theorem akeys_aupdate_not_mem {α β : Type} [DecidableEq α] {l : List (α × β)} {a : α} (b : β)
    (h : a ∉ akeys l) : akeys (aupdate l a b) = akeys l ++ [a] := by
  induction l with
  | nil => simp [aupdate, akeys]
  | cons hd tl ih =>
    obtain ⟨y, c⟩ := hd
    simp only [akeys_cons, List.mem_cons, not_or] at h
    simp only [aupdate, if_neg (Ne.symm h.1), akeys_cons, ih h.2, List.cons_append]

theorem akeys_aupdate_nodup {α β : Type} [DecidableEq α] {l : List (α × β)} (a : α) (b : β)
    (h : (akeys l).Nodup) : (akeys (aupdate l a b)).Nodup := by
  by_cases hm : a ∈ akeys l
  · rw [akeys_aupdate_of_mem b hm]
    exact h
  · rw [akeys_aupdate_not_mem b hm]
    simp [List.nodup_append, h, hm]

theorem akeys_aerase_sublist {α β : Type} [DecidableEq α] (l : List (α × β)) (a : α) :
    (akeys (aerase l a)).Sublist (akeys l) := by
  induction l with
  | nil => simp [aerase]
  | cons hd tl ih =>
    obtain ⟨y, c⟩ := hd
    by_cases hy : y = a
    · simp [aerase, hy, akeys_cons]
    · simp only [aerase, if_neg hy, akeys_cons]
      exact List.Sublist.cons₂ y ih

theorem akeys_aerase_nodup {α β : Type} [DecidableEq α] {l : List (α × β)} (a : α)
    (h : (akeys l).Nodup) : (akeys (aerase l a)).Nodup :=
  List.Nodup.sublist (akeys_aerase_sublist l a) h

theorem foldl_aerase_alookup_not_mem {α β : Type} [DecidableEq α] (gl : List α)
    (m : List (α × β)) (x : α) (h : x ∉ gl) :
    alookup (gl.foldl (fun acc g => aerase acc g) m) x = alookup m x := by
  induction gl generalizing m with
  | nil => rfl
  | cons g gs ih =>
    simp only [List.mem_cons, not_or] at h
    rw [List.foldl_cons, ih _ h.2, alookup_aerase_ne _ _ _ h.1]

theorem foldl_aerase_nodup {α β : Type} [DecidableEq α] (gl : List α) (m : List (α × β))
    (h : (akeys m).Nodup) : (akeys (gl.foldl (fun acc g => aerase acc g) m)).Nodup := by
  induction gl generalizing m with
  | nil => exact h
  | cons g gs ih => exact ih _ (akeys_aerase_nodup g h)

theorem foldl_aerase_alookup_mem {α β : Type} [DecidableEq α] (gl : List α)
    (m : List (α × β)) (x : α) (hn : (akeys m).Nodup) (h : x ∈ gl) :
    alookup (gl.foldl (fun acc g => aerase acc g) m) x = none := by
  induction gl generalizing m with
  | nil => simp at h
  | cons g gs ih =>
    rw [List.foldl_cons]
    by_cases hg : x ∈ gs
    · exact ih _ (akeys_aerase_nodup g hn) hg
    · have hx : x = g := by
        rcases List.mem_cons.mp h with h1 | h1
        · exact h1
        · exact absurd h1 hg
      subst hx
      rw [foldl_aerase_alookup_not_mem gs _ x hg]
      exact alookup_aerase_self hn

theorem foldl_aerase_sublist {α β : Type} [DecidableEq α] (gl : List α) (m : List (α × β)) :
    (akeys (gl.foldl (fun acc g => aerase acc g) m)).Sublist (akeys m) := by
  induction gl generalizing m with
  | nil => simp
  | cons g gs ih =>
    rw [List.foldl_cons]
    exact List.Sublist.trans (ih (aerase m g)) (akeys_aerase_sublist m g)

theorem parseHex_hexDigit (n : Nat) (h : n < 16) : parseHex (hexDigit n) = some n := by
  interval_cases n <;> decide

theorem jstrBody_escChar (c : Char) (acc tail : List Char) :
    jstrBody acc (escChar c ++ tail) = jstrBody (c :: acc) tail := by
  by_cases h1 : c = '"'
  · subst h1; rfl
  by_cases h2 : c = '\\'
  · subst h2; rfl
  by_cases h3 : c = '\x08'
  · subst h3; rfl
  by_cases h4 : c = '\x0c'
  · subst h4; rfl
  by_cases h5 : c = '\n'
  · subst h5; rfl
  by_cases h6 : c = '\r'
  · subst h6; rfl
  by_cases h7 : c = '\t'
  · subst h7; rfl
  by_cases h8 : c.toNat < 32
  · have hesc : escChar c =
        ['\\', 'u', '0', '0', hexDigit (c.toNat / 16), hexDigit (c.toNat % 16)] := by
      simp [escChar, h1, h2, h3, h4, h5, h6, h7, h8]
    have hdiv : c.toNat / 16 < 16 := by omega
    have hmod : c.toNat % 16 < 16 := Nat.mod_lt _ (by norm_num)
    rw [hesc]
    simp only [List.cons_append, List.nil_append, jstrBody,
      parseHex_hexDigit _ hdiv, parseHex_hexDigit _ hmod,
      show parseHex '0' = some 0 from rfl]
    have harith : 4096 * 0 + 256 * 0 + 16 * (c.toNat / 16) + c.toNat % 16 = c.toNat := by
      omega
    rw [harith, if_pos (show c.toNat < 55296 by omega), Char.ofNat_toNat]
    rfl
  · have hesc : escChar c = [c] := by
      simp [escChar, h1, h2, h3, h4, h5, h6, h7, h8]
    rw [hesc, List.singleton_append, jstrBody.eq_def]
    split
    · rename_i heq
      exact absurd heq (by simp)
    · rename_i heq
      rw [List.cons.injEq] at heq
      exact absurd heq.1 h1
    · rename_i heq
      rw [List.cons.injEq] at heq
      exact absurd heq.1 h2
    · rename_i c' rest' heq
      rw [List.cons.injEq] at heq
      obtain ⟨hc, hr⟩ := heq
      subst hc
      subst hr
      simp [h8]

theorem jstrBody_escList (l : List Char) : ∀ acc rest : List Char,
    jstrBody acc (escList l ++ '"' :: rest) = some (String.mk (acc.reverse ++ l), rest) := by
  induction l with
  | nil =>
    intro acc rest
    simp [escList, jstrBody]
  | cons c l ih =>
    intro acc rest
    rw [show escList (c :: l) = escChar c ++ escList l from by simp [escList],
      List.append_assoc, jstrBody_escChar, ih (c :: acc) rest]
    simp

theorem parseJString_jstr (s : String) (rest : List Char) :
    parseJString (jstr s ++ rest) = some (s, rest) := by
  rw [show jstr s ++ rest = '"' :: (escList s.data ++ '"' :: rest) from by simp [jstr]]
  rw [show parseJString ('"' :: (escList s.data ++ '"' :: rest)) =
    jstrBody [] (escList s.data ++ '"' :: rest) from rfl]
  rw [jstrBody_escList]
  rfl

theorem expectChars_append (p r : List Char) : expectChars p (p ++ r) = some r := by
  induction p with
  | nil => rfl
  | cons c cs ih => simp [expectChars, ih]

theorem expectChars_set_remove (tail : List Char) :
    expectChars setHeader (removeHeader ++ tail) = none := rfl

theorem parseCommand_encode (c : Command) (rest : List Char) :
    parseCommand (encodeCommand c ++ rest) = some (c, rest) := by
  cases c with
  | set k v =>
    rw [show encodeCommand (Command.set k v) ++ rest =
      setHeader ++ (jstr k ++ (valueSep ++ (jstr v ++ (closeBraces ++ rest)))) from by
        simp [encodeCommand]]
    simp only [parseCommand, expectChars_append, parseJString_jstr]
  | remove k =>
    rw [show encodeCommand (Command.remove k) ++ rest =
      removeHeader ++ (jstr k ++ (closeBraces ++ rest)) from by simp [encodeCommand]]
    simp only [parseCommand, expectChars_set_remove, expectChars_append, parseJString_jstr]

theorem decodeOne_encode (c : Command) : decodeOne (encodeCommand c) = some c := by
  have h := parseCommand_encode c []
  rw [List.append_nil] at h
  simp [decodeOne, h]

theorem expectChars_length : ∀ (p input r : List Char),
    expectChars p input = some r → r.length + p.length = input.length := by
  intro p
  induction p with
  | nil =>
    intro input r h
    simp [expectChars] at h
    subst h
    simp
  | cons c cs ih =>
    intro input r h
    cases input with
    | nil => simp [expectChars] at h
    | cons d ds =>
      rw [expectChars] at h
      by_cases hd : d = c
      · rw [if_pos hd] at h
        have := ih ds r h
        simp [List.length_cons]
        omega
      · rw [if_neg hd] at h
        exact absurd h (by simp)

theorem jstrBody_length (acc input : List Char) : ∀ s r, jstrBody acc input = some (s, r) →
    r.length ≤ input.length := by
  induction acc, input using jstrBody.induct <;> intro s r h <;>
    simp only [jstrBody] at h <;> try simp_all
  all_goals omega

theorem parseJString_length (input : List Char) (s : String) (r : List Char)
    (h : parseJString input = some (s, r)) : r.length ≤ input.length := by
  rw [parseJString.eq_def] at h
  split at h
  · rename_i rest
    have := jstrBody_length [] rest s r h
    simp
    omega
  · exact absurd h (by simp)

theorem parseCommand_length (input : List Char) (cmd : Command) (rest : List Char)
    (h : parseCommand input = some (cmd, rest)) : rest.length ≤ input.length := by
  rw [parseCommand] at h
  cases hse : expectChars setHeader input with
  | some r1 =>
    simp only [hse] at h
    cases hk : parseJString r1 with
    | none => simp [hk] at h
    | some pr =>
      obtain ⟨k, r2⟩ := pr
      simp only [hk] at h
      cases hvs : expectChars valueSep r2 with
      | none => simp [hvs] at h
      | some r3 =>
        simp only [hvs] at h
        cases hv : parseJString r3 with
        | none => simp [hv] at h
        | some pv =>
          obtain ⟨v, r4⟩ := pv
          simp only [hv] at h
          cases hcb : expectChars closeBraces r4 with
          | none => simp [hcb] at h
          | some r5 =>
            simp only [hcb, Option.some.injEq, Prod.mk.injEq] at h
            have l1 := expectChars_length setHeader input r1 hse
            have l2 := parseJString_length r1 k r2 hk
            have l3 := expectChars_length valueSep r2 r3 hvs
            have l4 := parseJString_length r3 v r4 hv
            have l5 := expectChars_length closeBraces r4 r5 hcb
            have hr : r5 = rest := h.2
            subst hr
            omega
  | none =>
    simp only [hse] at h
    cases hrh : expectChars removeHeader input with
    | none => simp [hrh] at h
    | some r1 =>
      simp only [hrh] at h
      cases hk : parseJString r1 with
      | none => simp [hk] at h
      | some pr =>
        obtain ⟨k, r2⟩ := pr
        simp only [hk] at h
        cases hcb : expectChars closeBraces r2 with
        | none => simp [hcb] at h
        | some r3 =>
          simp only [hcb, Option.some.injEq, Prod.mk.injEq] at h
          have l1 := expectChars_length removeHeader input r1 hrh
          have l2 := parseJString_length r1 k r2 hk
          have l3 := expectChars_length closeBraces r2 r3 hcb
          have hr : r3 = rest := h.2
          subst hr
          omega

/-! ## Claim theorems: the simpler claims -/

/-- C5: for every key that is not currently present, remove(k) fails with
exactly the KeyNotFound error, in both the log-structured engine and the
sled-backed engine. -/
theorem c5_remove_absent_key_not_found :
    (∀ (s : KvStore) (k : String), alookup s.index k = none →
      s.remove k = (Except.error KvsError.keyNotFound, s)) ∧
    (∀ (e : SledKvsEngine) (k : String), alookup e.db k = none →
      e.remove k = (Except.error KvsError.keyNotFound, e)) := by
  constructor
  · intro s k h
    simp [KvStore.remove, h]
  · intro e k h
    simp [SledKvsEngine.remove, h]

/-- Witness for C5 at concrete inputs. -/
theorem c5_witness :
    (alookup dummyStore.index "missing" = none ∧
      dummyStore.remove "missing" = (Except.error KvsError.keyNotFound, dummyStore)) ∧
    (alookup (SledKvsEngine.mk [("k", "v")]).db "missing" = none ∧
      (SledKvsEngine.mk [("k", "v")]).remove "missing" =
        (Except.error KvsError.keyNotFound, SledKvsEngine.mk [("k", "v")])) :=
  ⟨⟨rfl, c5_remove_absent_key_not_found.1 dummyStore "missing" rfl⟩,
   ⟨by decide, c5_remove_absent_key_not_found.2 (SledKvsEngine.mk [("k", "v")]) "missing"
      (by decide)⟩⟩

/-- C9: when remove(k) fails with KeyNotFound the engine state is entirely
unchanged: the returned state is the input state, so no bytes were appended
and index, uncompacted, writer position, current generation and the reader
map are exactly as before. -/
theorem c9_remove_absent_state_unchanged (s : KvStore) (k : String)
    (h : alookup s.index k = none) :
    s.remove k = (Except.error KvsError.keyNotFound, s) := by
  simp [KvStore.remove, h]

/-- Witness for C9 at a concrete reachable state. -/
theorem c9_witness :
    alookup storeC.index "zz" = none ∧
    storeC.remove "zz" = (Except.error KvsError.keyNotFound, storeC) :=
  ⟨by decide, c9_remove_absent_state_unchanged storeC "zz" (by decide)⟩

/-- C10: a successful remove appends its Remove record, deletes the key's
index entry and adds the old entry's length to uncompacted, but it never
compacts and never deletes a segment file: generation, readers and the set of
segment files are untouched, and uncompacted may end up above the compaction
threshold. -/
theorem c10_remove_never_compacts (s : KvStore) (k : String) (cp : CommandPos)
    (h : alookup s.index k = some cp) :
    (s.remove k).1 = Except.ok () ∧
    (s.remove k).2.currentGen = s.currentGen ∧
    (s.remove k).2.readers = s.readers ∧
    (s.remove k).2.index = aerase s.index k ∧
    (s.remove k).2.uncompacted = s.uncompacted + cp.length ∧
    (s.remove k).2.files = aupdate s.files s.currentGen
      (fileOf s.files s.currentGen ++ encodeCommand (Command.remove k)) ∧
    (∀ g, g ∈ akeys s.files → g ∈ akeys (s.remove k).2.files) ∧
    (s.uncompacted + cp.length > COMPACTION_THRESHOLD →
      (s.remove k).2.uncompacted > COMPACTION_THRESHOLD) := by
  refine ⟨?_, ?_, ?_, ?_, ?_, ?_, ?_, ?_⟩ <;>
    simp [KvStore.remove, h]
  · intro g hg
    exact (mem_akeys_aupdate _ _ _ _).mpr (Or.inl hg)

/-- Witness for C10: removing the only key of a store sitting just below the
threshold leaves uncompacted above the threshold with no compaction run. -/
theorem c10_witness :
    alookup nearThresholdStore.index "a" =
      some { gen := 1, start := 0, length := 31 } ∧
    (nearThresholdStore.remove "a").2.uncompacted = 1048601 ∧
    (nearThresholdStore.remove "a").2.uncompacted > COMPACTION_THRESHOLD ∧
    (nearThresholdStore.remove "a").2.currentGen = nearThresholdStore.currentGen := by
  have h := c10_remove_never_compacts nearThresholdStore "a"
    { gen := 1, start := 0, length := 31 } (by decide)
  exact ⟨by decide, by rw [h.2.2.2.2.1]; decide, by rw [h.2.2.2.2.1]; decide, h.2.1⟩

/-- C7: after set has written its record and updated the index, compaction is
performed exactly when the updated uncompacted counter is strictly greater
than COMPACTION_THRESHOLD = 1024 * 1024. -/
theorem c7_set_compaction_threshold (s : KvStore) (k v : String) :
    s.set k v = (if (setNoCompact s k v).uncompacted > COMPACTION_THRESHOLD
      then (setNoCompact s k v).compact else some (setNoCompact s k v)) ∧
    COMPACTION_THRESHOLD = 1048576 :=
  ⟨rfl, rfl⟩

/-- C3 (code bug): compacting the reachable state obtained by set("a","x"),
close, reopen changes the observable mapping: get("a") answers Ok(Some "x")
before compaction and a serde error afterwards, because the skipped seek made
compaction copy 0 characters from the old reader's end-of-file position. -/
theorem c3_compact_changes_get :
    Reachable storeC ∧
    (storeC.get "a").map Prod.fst = some (Except.ok (some "x")) ∧
    storeC.compact = some storeD ∧
    (storeD.get "a").map Prod.fst = some (Except.error KvsError.serde) :=
  ⟨Reachable.reopen storeB storeC
      (Reachable.doSet storeA storeB "a" "x" (Reachable.openInit storeA rfl) rfl) rfl,
    rfl, rfl, rfl⟩

/-- C4 (code bug): compact from current_gen = 2 correctly uses
compaction_gen = 3 and new current_gen = 4, but rewrites the entry of "a"
to length 0 instead of keeping its length 31: the copied byte count, not the
entry's length, becomes the new length. -/
theorem c4_compact_wrong_length :
    storeC.currentGen = 2 ∧
    alookup storeC.index "a" = some { gen := 1, start := 0, length := 31 } ∧
    storeC.compact = some storeD ∧
    storeD.currentGen = 4 ∧
    storeD.uncompacted = 0 ∧
    alookup storeD.index "a" = some { gen := 3, start := 0, length := 0 } :=
  ⟨rfl, rfl, rfl, rfl, rfl, rfl⟩

/-- C2 (code bug): after the faulty compaction, get("a") fails with a serde
error, but closing and reopening the directory turns the answer into
Ok(None): the reopened engine does not agree with the pre-close engine. -/
theorem c2_reopen_divergence :
    (storeD.get "a").map Prod.fst = some (Except.error KvsError.serde) ∧
    openStore storeD.files = Except.ok storeE ∧
    (storeE.get "a").map Prod.fst = some (Except.ok none) :=
  ⟨rfl, rfl, rfl⟩

/-- C6 counterexample: reading one character advances the underlying handle
but leaves pos at 0, so pos does not equal the handle's offset after a read;
and in the compaction loop the seek is governed by the tracked pos, not the
real cursor: with pos 5 and cursor 0 the seek to start 0 is performed even
though the cursor already equals the start, while with pos 0 and cursor 2 the
seek is skipped and the copy reads from offset 2 instead of start 0, storing
an entry of length 0. -/
theorem c6_counterexample :
    ((Reader.readTake { pos := 0, cursor := 0 } ['x', 'y'] 1).1.pos ≠
      (Reader.readTake { pos := 0, cursor := 0 } ['x', 'y'] 1).1.cursor) ∧
    compactLoop 2 [("k", { gen := 1, start := 0, length := 2 })]
        [(1, { pos := 5, cursor := 0 })] [(1, ['x', 'y']), (2, [])] 0 =
      some ([("k", { gen := 2, start := 0, length := 2 })],
        [(1, { pos := 0, cursor := 2 })], [(1, ['x', 'y']), (2, ['x', 'y'])], 2) ∧
    compactLoop 2 [("k", { gen := 1, start := 0, length := 2 })]
        [(1, { pos := 0, cursor := 2 })] [(1, ['x', 'y']), (2, [])] 0 =
      some ([("k", { gen := 2, start := 0, length := 0 })],
        [(1, { pos := 0, cursor := 2 })], [(1, ['x', 'y']), (2, [])], 0) := by
  refine ⟨by decide, rfl, rfl⟩

/-- C6 amended: the reader's pos equals the underlying offset after a seek,
but a read leaves pos unchanged while the underlying cursor advances by the
number of characters read; during compaction the seek is skipped exactly when
the tracked pos (not the real cursor) equals the entry's start, and the copy
then reads from wherever the real cursor is. -/
theorem c6_amended_reader_pos (r : Reader) (t : Nat) (file : List Char) (n : Nat)
    (cgen : Nat) (k : String) (cp : CommandPos) (np : Nat)
    (files : List (Nat × List Char)) :
    (r.seekTo t).pos = t ∧
    (r.seekTo t).cursor = t ∧
    (r.readTake file n).1.pos = r.pos ∧
    (r.readTake file n).1.cursor = r.cursor + (readAt file r.cursor n).length ∧
    compactLoop cgen [(k, cp)] [(cp.gen, r)] files np =
      (let r1 := if cp.start ≠ r.pos then r.seekTo cp.start else r
       let data := readAt (fileOf files cp.gen) r1.cursor cp.length
       some ([(k, CommandPos.new cgen np (np + data.length))],
         [(cp.gen, { pos := r1.pos, cursor := r1.cursor + data.length })],
         aupdate files cgen (fileOf files cgen ++ data), np + data.length)) := by
  refine ⟨rfl, rfl, rfl, rfl, ?_⟩
  simp [compactLoop, alookup, Reader.readTake, aupdate]

/-- C8 counterexample: the regular file "1.log.log" does not match
&lt;decimal&gt;.log, yet sorted_gen_list returns generation 1 for it, because
trim_end_matches strips the suffix ".log" repeatedly. -/
theorem c8_counterexample :
    sortedGenList [("1.log.log", true)] = [1] ∧
    specSortedGenList [("1.log.log", true)] = [] := by
  refine ⟨by decide, by decide⟩

/-- C8 amended: sorted_gen_list returns, in ascending order, the u64 parses
of the names of regular files whose extension is log, after stripping every
trailing ".log" occurrence from the name; names like "1.log.log" therefore
also contribute. -/
theorem c8_amended_sorted_gens (entries : List (String × Bool)) :
    List.Sorted (· ≤ ·) (sortedGenList entries) ∧
    (∀ g : Nat, g ∈ sortedGenList entries ↔
      ∃ name, (name, true) ∈ entries ∧ genOfName name true = some g) := by
  constructor
  · exact List.sorted_insertionSort _ _
  · intro g
    rw [sortedGenList, List.Perm.mem_iff (List.perm_insertionSort _ _), List.mem_filterMap]
    constructor
    · rintro ⟨⟨name, b⟩, hmem, hg⟩
      cases b with
      | false => simp [genOfName] at hg
      | true => exact ⟨name, hmem, hg⟩
    · rintro ⟨name, hmem, hg⟩
      exact ⟨(name, true), hmem, hg⟩

/-! ## Helper lemmas for the compaction and replay proofs -/

theorem alookup_isSome_of_mem {α β : Type} [DecidableEq α] {l : List (α × β)} {a : α}
    (h : a ∈ akeys l) : ∃ b, alookup l a = some b := by
  induction l with
  | nil => simp [akeys] at h
  | cons hd tl ih =>
    obtain ⟨y, c⟩ := hd
    by_cases hy : y = a
    · exact ⟨c, by simp [alookup, hy]⟩
    · rcases (by simpa only [akeys_cons, List.mem_cons] using h : a = y ∨ a ∈ akeys tl) with
        h' | h'
      · exact absurd h'.symm hy
      · obtain ⟨b, hb⟩ := ih h'
        exact ⟨b, by simp [alookup, hy, hb]⟩

theorem aupdate_split {α β : Type} [DecidableEq α] (l : List (α × β)) (a : α) (b : β) :
    ∃ pre post, aupdate l a b = pre ++ (a, b) :: post ∧
      (pre ++ post).Sublist l ∧ a ∉ akeys pre := by
  induction l with
  | nil => exact ⟨[], [], rfl, by simp, by simp [akeys]⟩
  | cons hd tl ih =>
    obtain ⟨y, c⟩ := hd
    by_cases hy : y = a
    · subst hy
      exact ⟨[], tl, by simp [aupdate], by simp, by simp [akeys]⟩
    · obtain ⟨pre, post, heq, hsub, hnot⟩ := ih
      refine ⟨(y, c) :: pre, post, ?_, ?_, ?_⟩
      · simp [aupdate, hy, heq]
      · simpa using List.Sublist.cons₂ (y, c) hsub
      · simp only [akeys_cons, List.mem_cons, not_or]
        exact ⟨fun hh => hy hh.symm, hnot⟩

theorem readAt_length_le (file : List Char) (off amt : Nat) (h : off ≤ file.length) :
    off + (readAt file off amt).length ≤ file.length := by
  simp only [readAt, List.length_take, List.length_drop]
  omega

theorem readAt_append_right (old rec1 : List Char) :
    readAt (old ++ rec1) old.length rec1.length = rec1 := by
  simp [readAt, List.drop_left]

theorem readAt_prefix_stable (c d : List Char) (off amt : Nat) (h : off + amt ≤ c.length) :
    readAt (c ++ d) off amt = readAt c off amt := by
  simp only [readAt]
  rw [List.drop_append_of_le_length (by omega)]
  rw [List.take_append_of_le_length (by simp [List.length_drop]; omega)]

theorem readAt_tail (c : List Char) (off amt : Nat) (h : off + amt = c.length) :
    readAt c off amt = c.drop off ∧ (readAt c off amt).length = amt := by
  have hlen : (c.drop off).length = amt := by simp [List.length_drop]; omega
  constructor
  · simp only [readAt]
    rw [← hlen, List.take_length]
  · simp [readAt, List.length_take, List.length_drop]
    omega


theorem fileOf_aupdate_self (files : List (Nat × List Char)) (g : Nat) (c : List Char) :
    fileOf (aupdate files g c) g = c := by
  simp [fileOf, alookup_aupdate_self]

theorem fileOf_aupdate_ne (files : List (Nat × List Char)) (g g' : Nat) (c : List Char)
    (h : g' ≠ g) : fileOf (aupdate files g c) g' = fileOf files g' := by
  simp [fileOf, alookup_aupdate_ne _ _ _ _ h]

/-- One unfolding of the compaction loop when the entry's reader exists. -/
theorem compactLoop_cons (cgen : Nat) (k : String) (cp : CommandPos)
    (rest : List (String × CommandPos)) (readers : List (Nat × Reader))
    (files : List (Nat × List Char)) (np : Nat) (r : Reader)
    (hr : alookup readers cp.gen = some r) :
    compactLoop cgen ((k, cp) :: rest) readers files np =
      (let r1 := if cp.start ≠ r.pos then r.seekTo cp.start else r
       let data := readAt (fileOf files cp.gen) r1.cursor cp.length
       match compactLoop cgen rest
           (aupdate readers cp.gen { pos := r1.pos, cursor := r1.cursor + data.length })
           (aupdate files cgen (fileOf files cgen ++ data)) (np + data.length) with
       | none => none
       | some (restIdx, rs, fs, np') =>
         some ((k, CommandPos.new cgen np (np + data.length)) :: restIdx, rs, fs, np')) := by
  simp only [compactLoop, hr, Reader.readTake]

/-- Master specification of the compaction loop: it succeeds when every entry
has a reader, never touches segments other than the compaction one, keeps the
compaction file's length equal to the running offset, rewrites every entry to
the compaction generation within bounds, preserves reader well-formedness,
and preserves the property that a reader whose tracked pos equals an offset X
beyond every processed entry's start also has its real cursor at X. -/
theorem compactLoop_master (cgen : Nat) (entries : List (String × CommandPos)) :
    ∀ (readers : List (Nat × Reader)) (files : List (Nat × List Char)) (np : Nat),
    (fileOf files cgen).length = np →
    cgen ∈ akeys files →
    (∀ g r, alookup readers g = some r →
      r.pos ≤ r.cursor ∧ r.cursor ≤ (fileOf files g).length) →
    (∀ p ∈ entries, p.2.gen ≠ cgen) →
    (∀ p ∈ entries, p.2.start + p.2.length ≤ (fileOf files p.2.gen).length) →
    (∀ p ∈ entries, ∃ r, alookup readers p.2.gen = some r) →
    ∃ idx' rs' fs' np',
      compactLoop cgen entries readers files np = some (idx', rs', fs', np') ∧
      akeys idx' = akeys entries ∧
      (∀ p ∈ idx', p.2.gen = cgen ∧ p.2.start + p.2.length ≤ np') ∧
      (fileOf fs' cgen).length = np' ∧
      (∀ g r, alookup rs' g = some r →
        r.pos ≤ r.cursor ∧ r.cursor ≤ (fileOf fs' g).length) ∧
      akeys rs' = akeys readers ∧
      (∀ g, g ≠ cgen → alookup fs' g = alookup files g) ∧
      akeys fs' = akeys files ∧
      (∃ ext, fileOf fs' cgen = fileOf files cgen ++ ext) ∧
      (∀ (g X : Nat),
        (∀ p ∈ entries, p.2.gen = g → p.2.start < X) →
        (∀ r0, alookup readers g = some r0 → r0.pos = X → r0.cursor = X) →
        (∀ r1, alookup rs' g = some r1 → r1.pos = X → r1.cursor = X)) ∧
      np ≤ np' := by
  induction entries with
  | nil =>
    intro readers files np hcf hcm hrb _ _ _
    refine ⟨[], readers, files, np, rfl, rfl, by simp, hcf, hrb, rfl, fun g _ => rfl, rfl,
      ⟨[], by simp⟩, ?_, le_refl np⟩
    intro g X _ h0 r1 hr1
    exact h0 r1 hr1
  | cons hd rest ih =>
    intro readers files np hcf hcm hrb heg heb her
    obtain ⟨k, cp⟩ := hd
    obtain ⟨r, hr⟩ := her (k, cp) (List.mem_cons_self _ _)
    have hgen_ne : cp.gen ≠ cgen := heg (k, cp) (List.mem_cons_self _ _)
    have hstart : cp.start + cp.length ≤ (fileOf files cp.gen).length :=
      heb (k, cp) (List.mem_cons_self _ _)
    rw [compactLoop_cons cgen k cp rest readers files np r hr]
    set r1 := if cp.start ≠ r.pos then r.seekTo cp.start else r with hr1def
    set data := readAt (fileOf files cp.gen) r1.cursor cp.length with hdatadef
    have hr1b : r1.pos ≤ r1.cursor ∧ r1.cursor ≤ (fileOf files cp.gen).length := by
      rw [hr1def]
      by_cases hskip : cp.start ≠ r.pos
      · rw [if_pos hskip]
        exact ⟨le_refl _, by simp [Reader.seekTo]; omega⟩
      · rw [if_neg hskip]
        exact hrb cp.gen r hr
    have hpos1 : r1.pos = cp.start ∨ r1.pos = r.pos := by
      rw [hr1def]
      by_cases hskip : cp.start ≠ r.pos
      · rw [if_pos hskip]; exact Or.inl rfl
      · rw [if_neg hskip]; exact Or.inr rfl
    have hpos_start : r1.pos = cp.start := by
      rw [hr1def]
      by_cases hskip : cp.start ≠ r.pos
      · rw [if_pos hskip]; rfl
      · rw [if_neg hskip]
        push_neg at hskip
        exact hskip.symm
    have hdlen : r1.cursor + data.length ≤ (fileOf files cp.gen).length := by
      rw [hdatadef]
      exact readAt_length_le _ _ _ hr1b.2
    have hcf2 : (fileOf (aupdate files cgen (fileOf files cgen ++ data)) cgen).length =
        np + data.length := by
      rw [fileOf_aupdate_self, List.length_append, hcf]
    have hcm2 : cgen ∈ akeys (aupdate files cgen (fileOf files cgen ++ data)) :=
      (mem_akeys_aupdate _ _ _ _).mpr (Or.inr rfl)
    have hfup_ne : ∀ g, g ≠ cgen →
        fileOf (aupdate files cgen (fileOf files cgen ++ data)) g = fileOf files g :=
      fun g hg => fileOf_aupdate_ne _ _ _ _ hg
    have hrb2 : ∀ g r', alookup
        (aupdate readers cp.gen { pos := r1.pos, cursor := r1.cursor + data.length }) g =
          some r' →
        r'.pos ≤ r'.cursor ∧
        r'.cursor ≤ (fileOf (aupdate files cgen (fileOf files cgen ++ data)) g).length := by
      intro g r' hg
      by_cases hgc : g = cp.gen
      · subst hgc
        rw [alookup_aupdate_self] at hg
        cases hg
        refine ⟨by simp; omega, ?_⟩
        rw [hfup_ne cp.gen hgen_ne]
        simpa using hdlen
      · rw [alookup_aupdate_ne _ _ _ _ hgc] at hg
        have hb := hrb g r' hg
        by_cases hgcg : g = cgen
        · subst hgcg
          rw [fileOf_aupdate_self]
          refine ⟨hb.1, le_trans hb.2 ?_⟩
          simp
        · rw [hfup_ne g hgcg]
          exact hb
    have heg2 : ∀ p ∈ rest, p.2.gen ≠ cgen := fun p hp => heg p (List.mem_cons_of_mem _ hp)
    have heb2 : ∀ p ∈ rest, p.2.start + p.2.length ≤
        (fileOf (aupdate files cgen (fileOf files cgen ++ data)) p.2.gen).length := by
      intro p hp
      rw [hfup_ne p.2.gen (heg2 p hp)]
      exact heb p (List.mem_cons_of_mem _ hp)
    have her2 : ∀ p ∈ rest, ∃ r', alookup
        (aupdate readers cp.gen { pos := r1.pos, cursor := r1.cursor + data.length }) p.2.gen =
          some r' := by
      intro p hp
      by_cases hgc : p.2.gen = cp.gen
      · rw [hgc, alookup_aupdate_self]
        exact ⟨_, rfl⟩
      · rw [alookup_aupdate_ne _ _ _ _ hgc]
        exact her p (List.mem_cons_of_mem _ hp)
    obtain ⟨idx', rs', fs', np', hcl, hkeys, hent, hcf', hrb', hkeysr, hfne, hkeysf, hext,
      hJ, hmono⟩ :=
      ih _ _ _ hcf2 hcm2 hrb2 heg2 heb2 her2
    refine ⟨(k, CommandPos.new cgen np (np + data.length)) :: idx', rs', fs', np',
      by simp only [hcl], ?_, ?_, hcf', hrb', ?_, ?_, ?_, ?_, ?_, ?_⟩
    · simp [akeys_cons, hkeys]
    · intro p hp
      rcases List.mem_cons.mp hp with hp | hp
      · subst hp
        refine ⟨rfl, ?_⟩
        simp only [CommandPos.new]
        omega
      · exact hent p hp
    · rw [hkeysr, akeys_aupdate_of_mem _ (mem_akeys_of_alookup hr)]
    · intro g hg
      rw [hfne g hg, alookup_aupdate_ne _ _ _ _ hg]
    · rw [hkeysf, akeys_aupdate_of_mem _ hcm]
    · obtain ⟨ext, hext⟩ := hext
      rw [fileOf_aupdate_self] at hext
      exact ⟨data ++ ext, by rw [hext, List.append_assoc]⟩
    · intro g X hlt h0
      refine hJ g X (fun p hp => hlt p (List.mem_cons_of_mem _ hp)) ?_
      intro r0 hr0
      by_cases hgc : g = cp.gen
      · subst hgc
        rw [alookup_aupdate_self] at hr0
        cases hr0
        intro hpx
        have hpx' : cp.start = X := by simpa [hpos_start] using hpx
        have hlt' : cp.start < X := hlt (k, cp) (List.mem_cons_self _ _) rfl
        omega
      · rw [alookup_aupdate_ne _ _ _ _ hgc] at hr0
        exact h0 r0 hr0
    · omega

/-- Tracked run of the compaction loop: when one entry (k0, cp0) points at
the tail of its segment, every other entry of that segment starts strictly
before it, and the segment's reader has its real cursor at cp0.start whenever
its tracked pos is cp0.start, then the loop copies that record intact into
the compaction segment and rewrites the entry to it. -/
theorem compactLoop_tracked (cgen : Nat) (k0 : String) (cp0 : CommandPos)
    (pre : List (String × CommandPos)) :
    ∀ (post : List (String × CommandPos)) (readers : List (Nat × Reader))
      (files : List (Nat × List Char)) (np : Nat),
    (fileOf files cgen).length = np →
    cgen ∈ akeys files →
    (∀ g r, alookup readers g = some r →
      r.pos ≤ r.cursor ∧ r.cursor ≤ (fileOf files g).length) →
    (∀ p ∈ pre ++ (k0, cp0) :: post, p.2.gen ≠ cgen) →
    (∀ p ∈ pre ++ (k0, cp0) :: post,
      p.2.start + p.2.length ≤ (fileOf files p.2.gen).length) →
    (∀ p ∈ pre ++ (k0, cp0) :: post, ∃ r, alookup readers p.2.gen = some r) →
    (∀ p ∈ pre ++ post, p.2.gen = cp0.gen → p.2.start < cp0.start) →
    (∀ r0, alookup readers cp0.gen = some r0 → r0.pos = cp0.start →
      r0.cursor = cp0.start) →
    cp0.start + cp0.length = (fileOf files cp0.gen).length →
    k0 ∉ akeys pre →
    ∃ idx' rs' fs' np' npk,
      compactLoop cgen (pre ++ (k0, cp0) :: post) readers files np =
        some (idx', rs', fs', np') ∧
      alookup idx' k0 = some (CommandPos.new cgen npk (npk + cp0.length)) ∧
      readAt (fileOf fs' cgen) npk cp0.length =
        readAt (fileOf files cp0.gen) cp0.start cp0.length ∧
      npk + cp0.length ≤ np' ∧
      (fileOf fs' cgen).length = np' ∧
      akeys rs' = akeys readers := by
  induction pre with
  | nil =>
    intro post readers files np hcf hcm hrb heg heb her hoth hJ htail _
    obtain ⟨r, hr⟩ := her (k0, cp0) (by simp)
    have hgen_ne : cp0.gen ≠ cgen := heg (k0, cp0) (by simp)
    rw [List.nil_append, compactLoop_cons cgen k0 cp0 post readers files np r hr]
    set r1 := if cp0.start ≠ r.pos then r.seekTo cp0.start else r with hr1def
    have hcur : r1.cursor = cp0.start := by
      rw [hr1def]
      by_cases hskip : cp0.start ≠ r.pos
      · rw [if_pos hskip]; rfl
      · rw [if_neg hskip]
        push_neg at hskip
        exact hJ r hr hskip.symm
    have hpos_start : r1.pos = cp0.start := by
      rw [hr1def]
      by_cases hskip : cp0.start ≠ r.pos
      · rw [if_pos hskip]; rfl
      · rw [if_neg hskip]
        push_neg at hskip
        exact hskip.symm
    set data := readAt (fileOf files cp0.gen) r1.cursor cp0.length with hdatadef
    have hdata_eq : data = readAt (fileOf files cp0.gen) cp0.start cp0.length := by
      rw [hdatadef, hcur]
    have hdata_len : data.length = cp0.length := by
      rw [hdata_eq]
      exact (readAt_tail _ _ _ htail).2
    have hr1b : r1.pos ≤ r1.cursor ∧ r1.cursor ≤ (fileOf files cp0.gen).length := by
      constructor
      · rw [hpos_start, hcur]
      · rw [hcur]; omega
    have hdlen : r1.cursor + data.length ≤ (fileOf files cp0.gen).length := by
      rw [hcur, hdata_len]; omega
    have hcf2 : (fileOf (aupdate files cgen (fileOf files cgen ++ data)) cgen).length =
        np + data.length := by
      rw [fileOf_aupdate_self, List.length_append, hcf]
    have hcm2 : cgen ∈ akeys (aupdate files cgen (fileOf files cgen ++ data)) :=
      (mem_akeys_aupdate _ _ _ _).mpr (Or.inr rfl)
    have hfup_ne : ∀ g, g ≠ cgen →
        fileOf (aupdate files cgen (fileOf files cgen ++ data)) g = fileOf files g :=
      fun g hg => fileOf_aupdate_ne _ _ _ _ hg
    have hrb2 : ∀ g r', alookup
        (aupdate readers cp0.gen { pos := r1.pos, cursor := r1.cursor + data.length }) g =
          some r' →
        r'.pos ≤ r'.cursor ∧
        r'.cursor ≤ (fileOf (aupdate files cgen (fileOf files cgen ++ data)) g).length := by
      intro g r' hg
      by_cases hgc : g = cp0.gen
      · subst hgc
        rw [alookup_aupdate_self] at hg
        cases hg
        refine ⟨by simp; omega, ?_⟩
        rw [hfup_ne cp0.gen hgen_ne]
        simpa using hdlen
      · rw [alookup_aupdate_ne _ _ _ _ hgc] at hg
        have hb := hrb g r' hg
        by_cases hgcg : g = cgen
        · subst hgcg
          rw [fileOf_aupdate_self]
          refine ⟨hb.1, le_trans hb.2 ?_⟩
          simp
        · rw [hfup_ne g hgcg]
          exact hb
    have heg2 : ∀ p ∈ post, p.2.gen ≠ cgen := fun p hp => heg p (by simp [hp])
    have heb2 : ∀ p ∈ post, p.2.start + p.2.length ≤
        (fileOf (aupdate files cgen (fileOf files cgen ++ data)) p.2.gen).length := by
      intro p hp
      rw [hfup_ne p.2.gen (heg2 p hp)]
      exact heb p (by simp [hp])
    have her2 : ∀ p ∈ post, ∃ r', alookup
        (aupdate readers cp0.gen { pos := r1.pos, cursor := r1.cursor + data.length })
          p.2.gen = some r' := by
      intro p hp
      by_cases hgc : p.2.gen = cp0.gen
      · rw [hgc, alookup_aupdate_self]
        exact ⟨_, rfl⟩
      · rw [alookup_aupdate_ne _ _ _ _ hgc]
        exact her p (by simp [hp])
    obtain ⟨idx', rs', fs', np', hcl, _, _, hcf', _, hkeysr, _, _, hext, _, hmono⟩ :=
      compactLoop_master cgen post _ _ _ hcf2 hcm2 hrb2 heg2 heb2 her2
    refine ⟨(k0, CommandPos.new cgen np (np + data.length)) :: idx', rs', fs', np', np,
      by simp only [hcl], ?_, ?_, ?_, hcf', ?_⟩
    · rw [show CommandPos.new cgen np (np + cp0.length) =
        CommandPos.new cgen np (np + data.length) from by rw [hdata_len]]
      simp [alookup]
    · obtain ⟨ext, hextv⟩ := hext
      rw [fileOf_aupdate_self] at hextv
      rw [hextv, List.append_assoc, ← hdata_eq]
      have hnp : np = (fileOf files cgen).length := hcf.symm
      subst hnp
      rw [readAt, List.drop_left, ← hdata_len, List.take_left]
    · rw [← hdata_len]
      exact hmono
    · rw [hkeysr, akeys_aupdate_of_mem _ (mem_akeys_of_alookup hr)]
  | cons hd pre' ih =>
    intro post readers files np hcf hcm hrb heg heb her hoth hJ htail hk0
    obtain ⟨k, cp⟩ := hd
    obtain ⟨r, hr⟩ := her (k, cp) (by simp)
    have hgen_ne : cp.gen ≠ cgen := heg (k, cp) (by simp)
    have hstart : cp.start + cp.length ≤ (fileOf files cp.gen).length := heb (k, cp) (by simp)
    have hk0_gen_ne : cp0.gen ≠ cgen := heg (k0, cp0) (by simp)
    rw [List.cons_append, compactLoop_cons cgen k cp _ readers files np r hr]
    set r1 := if cp.start ≠ r.pos then r.seekTo cp.start else r with hr1def
    set data := readAt (fileOf files cp.gen) r1.cursor cp.length with hdatadef
    have hpos_start : r1.pos = cp.start := by
      rw [hr1def]
      by_cases hskip : cp.start ≠ r.pos
      · rw [if_pos hskip]; rfl
      · rw [if_neg hskip]
        push_neg at hskip
        exact hskip.symm
    have hr1b : r1.pos ≤ r1.cursor ∧ r1.cursor ≤ (fileOf files cp.gen).length := by
      rw [hr1def]
      by_cases hskip : cp.start ≠ r.pos
      · rw [if_pos hskip]
        exact ⟨le_refl _, by simp [Reader.seekTo]; omega⟩
      · rw [if_neg hskip]
        exact hrb cp.gen r hr
    have hdlen : r1.cursor + data.length ≤ (fileOf files cp.gen).length := by
      rw [hdatadef]
      exact readAt_length_le _ _ _ hr1b.2
    have hcf2 : (fileOf (aupdate files cgen (fileOf files cgen ++ data)) cgen).length =
        np + data.length := by
      rw [fileOf_aupdate_self, List.length_append, hcf]
    have hcm2 : cgen ∈ akeys (aupdate files cgen (fileOf files cgen ++ data)) :=
      (mem_akeys_aupdate _ _ _ _).mpr (Or.inr rfl)
    have hfup_ne : ∀ g, g ≠ cgen →
        fileOf (aupdate files cgen (fileOf files cgen ++ data)) g = fileOf files g :=
      fun g hg => fileOf_aupdate_ne _ _ _ _ hg
    have hrb2 : ∀ g r', alookup
        (aupdate readers cp.gen { pos := r1.pos, cursor := r1.cursor + data.length }) g =
          some r' →
        r'.pos ≤ r'.cursor ∧
        r'.cursor ≤ (fileOf (aupdate files cgen (fileOf files cgen ++ data)) g).length := by
      intro g r' hg
      by_cases hgc : g = cp.gen
      · subst hgc
        rw [alookup_aupdate_self] at hg
        cases hg
        refine ⟨by simp; omega, ?_⟩
        rw [hfup_ne cp.gen hgen_ne]
        simpa using hdlen
      · rw [alookup_aupdate_ne _ _ _ _ hgc] at hg
        have hb := hrb g r' hg
        by_cases hgcg : g = cgen
        · subst hgcg
          rw [fileOf_aupdate_self]
          refine ⟨hb.1, le_trans hb.2 ?_⟩
          simp
        · rw [hfup_ne g hgcg]
          exact hb
    have heg2 : ∀ p ∈ pre' ++ (k0, cp0) :: post, p.2.gen ≠ cgen := by
      intro p hp
      exact heg p (by simpa using Or.inr hp)
    have heb2 : ∀ p ∈ pre' ++ (k0, cp0) :: post, p.2.start + p.2.length ≤
        (fileOf (aupdate files cgen (fileOf files cgen ++ data)) p.2.gen).length := by
      intro p hp
      rw [hfup_ne p.2.gen (heg2 p hp)]
      exact heb p (by simpa using Or.inr hp)
    have her2 : ∀ p ∈ pre' ++ (k0, cp0) :: post, ∃ r', alookup
        (aupdate readers cp.gen { pos := r1.pos, cursor := r1.cursor + data.length })
          p.2.gen = some r' := by
      intro p hp
      by_cases hgc : p.2.gen = cp.gen
      · rw [hgc, alookup_aupdate_self]
        exact ⟨_, rfl⟩
      · rw [alookup_aupdate_ne _ _ _ _ hgc]
        exact her p (by simpa using Or.inr hp)
    have hoth2 : ∀ p ∈ pre' ++ post, p.2.gen = cp0.gen → p.2.start < cp0.start := by
      intro p hp
      refine hoth p ?_
      rcases List.mem_append.mp hp with hp | hp
      · exact List.mem_append.mpr (Or.inl (List.mem_cons_of_mem _ hp))
      · exact List.mem_append.mpr (Or.inr hp)
    have hJ2 : ∀ r0, alookup
        (aupdate readers cp.gen { pos := r1.pos, cursor := r1.cursor + data.length })
          cp0.gen = some r0 → r0.pos = cp0.start → r0.cursor = cp0.start := by
      intro r0 hr0
      by_cases hgc : cp0.gen = cp.gen
      · rw [hgc, alookup_aupdate_self] at hr0
        cases hr0
        intro hpx
        have hpx' : cp.start = cp0.start := by simpa [hpos_start] using hpx
        have hlt' : cp.start < cp0.start :=
          hoth (k, cp) (List.mem_append.mpr (Or.inl (List.mem_cons_self _ _))) hgc.symm
        omega
      · rw [alookup_aupdate_ne _ _ _ _ hgc] at hr0
        exact hJ r0 hr0
    have htail2 : cp0.start + cp0.length =
        (fileOf (aupdate files cgen (fileOf files cgen ++ data)) cp0.gen).length := by
      rw [hfup_ne cp0.gen hk0_gen_ne]
      exact htail
    have hk02 : k0 ∉ akeys pre' := by
      intro hmem
      exact hk0 (by simp [akeys_cons, hmem])
    have hk0_ne : k0 ≠ k := by
      intro hh
      exact hk0 (by simp [akeys_cons, hh])
    obtain ⟨idx', rs', fs', np', npk, hcl, hidxk, hchunk, hnpk, hcf', hkeysr⟩ :=
      ih post _ _ _ hcf2 hcm2 hrb2 heg2 heb2 her2 hoth2 hJ2 htail2 hk02
    refine ⟨(k, CommandPos.new cgen np (np + data.length)) :: idx', rs', fs', np', npk,
      by simp only [hcl], ?_, ?_, hnpk, hcf', ?_⟩
    · simp [alookup, Ne.symm hk0_ne, hidxk]
    · rw [hchunk, hfup_ne cp0.gen hk0_gen_ne]
    · rw [hkeysr, akeys_aupdate_of_mem _ (mem_akeys_of_alookup hr)]

theorem set_unfold (s : KvStore) (k v : String) :
    s.set k v = (if (setNoCompact s k v).uncompacted > COMPACTION_THRESHOLD
      then (setNoCompact s k v).compact else some (setNoCompact s k v)) := rfl

theorem CommandPos.new_length (g a b : Nat) : (CommandPos.new g a b).length = b - a := rfl

theorem CommandPos.new_start (g a b : Nat) : (CommandPos.new g a b).start = a := rfl

theorem CommandPos.new_gen (g a b : Nat) : (CommandPos.new g a b).gen = g := rfl

theorem encodeCommand_ne_nil (c : Command) : (encodeCommand c).length ≥ 1 := by
  cases c with
  | set k v => simp [encodeCommand, setHeader]
  | remove k => simp [encodeCommand, removeHeader]

/-- What get returns when the index entry, its reader, and a well-decoding
record at the referenced location all exist. -/
theorem get_eq (s : KvStore) (k kk v : String) (cp : CommandPos) (r : Reader)
    (h1 : alookup s.index k = some cp)
    (h2 : alookup s.readers cp.gen = some r)
    (h3 : decodeOne (readAt (fileOf s.files cp.gen) cp.start cp.length) =
      some (Command.set kk v)) :
    ∃ t, s.get k = some (Except.ok (some v), t) := by
  exact ⟨_, by simp only [KvStore.get, h1, h2, Reader.readTake, Reader.seekTo, h3]; rfl⟩

/-- The intermediate state of set preserves the engine invariant. -/
theorem inv_setNoCompact (s : KvStore) (k v : String) (hInv : EngineInv s) :
    EngineInv (setNoCompact s k v) := by
  obtain ⟨hw, hrb, hcr, heb, hce, hrg, hfg, hni, hnr, hnf⟩ := hInv
  refine ⟨?_, ?_, ?_, ?_, ?_, ?_, ?_, ?_, ?_, ?_⟩ <;>
    simp only [setNoCompact]
  · rw [fileOf_aupdate_self, List.length_append, hw]
  · intro g r hg
    by_cases hgc : g = s.currentGen
    · subst hgc
      rw [fileOf_aupdate_self]
      have hb := hrb s.currentGen r hg
      refine ⟨hb.1, le_trans hb.2 ?_⟩
      rw [List.length_append]
      omega
    · rw [fileOf_aupdate_ne _ _ _ _ hgc]
      exact hrb g r hg
  · exact hcr
  · intro k' cp' h'
    by_cases hk : k' = k
    · subst hk
      rw [alookup_aupdate_self] at h'
      cases h'
      constructor
      · rw [CommandPos.new_gen, CommandPos.new_start, CommandPos.new_length,
          fileOf_aupdate_self, List.length_append, hw]
        omega
      · rw [CommandPos.new_gen]
        exact hcr
    · rw [alookup_aupdate_ne _ _ _ _ hk] at h'
      obtain ⟨hb, hrd⟩ := heb k' cp' h'
      refine ⟨?_, hrd⟩
      by_cases hgc : cp'.gen = s.currentGen
      · rw [hgc, fileOf_aupdate_self, List.length_append]
        rw [hgc] at hb
        omega
      · rw [fileOf_aupdate_ne _ _ _ _ hgc]
        exact hb
  · intro k' cp' h' hgen
    by_cases hk : k' = k
    · rw [hk, alookup_aupdate_self] at h'
      cases h'
      rw [CommandPos.new_length]
      have := encodeCommand_ne_nil (Command.set k v)
      omega
    · rw [alookup_aupdate_ne _ _ _ _ hk] at h'
      exact hce k' cp' h' hgen
  · exact hrg
  · intro g hg
    rcases (mem_akeys_aupdate _ _ _ _).mp hg with hg | hg
    · exact hfg g hg
    · omega
  · exact akeys_aupdate_nodup _ _ hni
  · exact hnr
  · exact akeys_aupdate_nodup _ _ hnf

theorem compact_unfold (t : KvStore) :
    t.compact = (match compactLoop (t.currentGen + 1) t.index
        (aupdate (aupdate t.readers (t.currentGen + 2) { pos := 0, cursor := 0 })
          (t.currentGen + 1) { pos := 0, cursor := 0 })
        (aupdate (aupdate t.files (t.currentGen + 2) (fileOf t.files (t.currentGen + 2)))
          (t.currentGen + 1)
          (fileOf (aupdate t.files (t.currentGen + 2) (fileOf t.files (t.currentGen + 2)))
            (t.currentGen + 1))) 0 with
      | none => none
      | some (index', readers', files', _) =>
        some { currentGen := t.currentGen + 2,
               readers := (((akeys readers').filter (fun g => g < t.currentGen + 1)).foldl
                 (fun m g => aerase m g) readers'),
               writerPos := 0, index := index', uncompacted := 0,
               files := (((akeys readers').filter (fun g => g < t.currentGen + 1)).foldl
                 (fun m g => aerase m g) files') }) := by
  simp only [KvStore.compact, newLogFile]

theorem mem_of_alookup {α β : Type} [DecidableEq α] {l : List (α × β)} {a : α} {b : β}
    (h : alookup l a = some b) : (a, b) ∈ l := by
  induction l with
  | nil => simp [alookup] at h
  | cons hd tl ih =>
    obtain ⟨y, c⟩ := hd
    by_cases hy : y = a
    · subst hy
      rw [alookup, if_pos rfl] at h
      cases h
      exact List.mem_cons_self _ _
    · rw [alookup, if_neg hy] at h
      exact List.mem_cons_of_mem _ (ih h)

theorem mem_akeys_of_mem {α β : Type} {l : List (α × β)} {p : α × β} (h : p ∈ l) :
    p.1 ∈ akeys l := List.mem_map_of_mem Prod.fst h

theorem alookup_of_mem_nodup {α β : Type} [DecidableEq α] {l : List (α × β)}
    (hn : (akeys l).Nodup) {p : α × β} (hp : p ∈ l) : alookup l p.1 = some p.2 := by
  induction l with
  | nil => simp at hp
  | cons hd tl ih =>
    obtain ⟨y, c⟩ := hd
    rw [akeys_cons, List.nodup_cons] at hn
    rcases List.mem_cons.mp hp with hp | hp
    · subst hp
      rw [alookup, if_pos rfl]
    · have hne : y ≠ p.1 := by
        intro hh
        exact hn.1 (hh ▸ mem_akeys_of_mem hp)
      rw [alookup, if_neg hne]
      exact ih hn.2 hp

/-- Compaction preserves the engine invariant. -/
theorem inv_compact (t s' : KvStore) (hInv : EngineInv t) (h : t.compact = some s') :
    EngineInv s' := by
  obtain ⟨hw, hrb, hcr, heb, hce, hrg, hfg, hni, hnr, hnf⟩ := hInv
  rw [compact_unfold] at h
  set cgen := t.currentGen + 1 with hcgen
  set cur' := t.currentGen + 2 with hcur
  set readers2 := aupdate (aupdate t.readers cur' { pos := 0, cursor := 0 }) cgen
    { pos := 0, cursor := 0 } with hreaders2
  set files2 := aupdate (aupdate t.files cur' (fileOf t.files cur')) cgen
    (fileOf (aupdate t.files cur' (fileOf t.files cur')) cgen) with hfiles2
  have hf_cgen : alookup t.files cgen = none :=
    alookup_eq_none (fun hm => by have := hfg _ hm; omega)
  have hf_cur : alookup t.files cur' = none :=
    alookup_eq_none (fun hm => by have := hfg _ hm; omega)
  have hfile1_cgen : fileOf (aupdate t.files cur' (fileOf t.files cur')) cgen = [] := by
    rw [fileOf_aupdate_ne _ _ _ _ (by omega : cgen ≠ cur'), fileOf, hf_cgen]
    rfl
  have hfile2_cgen : fileOf files2 cgen = [] := by
    rw [hfiles2, fileOf_aupdate_self, hfile1_cgen]
  have hfile2_ne : ∀ g, g ≠ cgen → g ≠ cur' → fileOf files2 g = fileOf t.files g := by
    intro g h1 h2
    rw [hfiles2, fileOf_aupdate_ne _ _ _ _ h1, fileOf_aupdate_ne _ _ _ _ h2]
  have hcf2 : (fileOf files2 cgen).length = 0 := by rw [hfile2_cgen]; rfl
  have hcm2 : cgen ∈ akeys files2 := (mem_akeys_aupdate _ _ _ _).mpr (Or.inr rfl)
  have hrb2 : ∀ g r, alookup readers2 g = some r →
      r.pos ≤ r.cursor ∧ r.cursor ≤ (fileOf files2 g).length := by
    intro g r hg
    by_cases h1 : g = cgen
    · subst h1
      rw [hreaders2, alookup_aupdate_self] at hg
      cases hg
      exact ⟨le_refl 0, Nat.zero_le _⟩
    · by_cases h2 : g = cur'
      · subst h2
        rw [hreaders2, alookup_aupdate_ne _ _ _ _ (by omega : cur' ≠ cgen),
          alookup_aupdate_self] at hg
        cases hg
        exact ⟨le_refl 0, Nat.zero_le _⟩
      · rw [hreaders2, alookup_aupdate_ne _ _ _ _ h1, alookup_aupdate_ne _ _ _ _ h2] at hg
        rw [hfile2_ne g h1 h2]
        exact hrb g r hg
  have hmem_lookup : ∀ p ∈ t.index, alookup t.index p.1 = some p.2 :=
    fun p hp => alookup_of_mem_nodup hni hp
  have hgen_le : ∀ p ∈ t.index, p.2.gen ≤ t.currentGen := by
    intro p hp
    obtain ⟨_, r, hr⟩ := heb p.1 p.2 (hmem_lookup p hp)
    exact hrg _ (mem_akeys_of_alookup hr)
  have heg2 : ∀ p ∈ t.index, p.2.gen ≠ cgen := by
    intro p hp
    have := hgen_le p hp
    omega
  have heb2 : ∀ p ∈ t.index, p.2.start + p.2.length ≤ (fileOf files2 p.2.gen).length := by
    intro p hp
    rw [hfile2_ne _ (by have := hgen_le p hp; omega) (by have := hgen_le p hp; omega)]
    exact (heb p.1 p.2 (hmem_lookup p hp)).1
  have her2 : ∀ p ∈ t.index, ∃ r, alookup readers2 p.2.gen = some r := by
    intro p hp
    obtain ⟨_, r, hr⟩ := heb p.1 p.2 (hmem_lookup p hp)
    refine ⟨r, ?_⟩
    rw [hreaders2, alookup_aupdate_ne _ _ _ _ (by have := hgen_le p hp; omega),
      alookup_aupdate_ne _ _ _ _ (by have := hgen_le p hp; omega)]
    exact hr
  obtain ⟨idx', rs', fs', np', hcl, hkeys, hent, hcf', hrb', hkeysr, hfne, hkeysf, hext,
    hJ, hmono⟩ := compactLoop_master cgen t.index readers2 files2 0 hcf2 hcm2 hrb2 heg2
      heb2 her2
  simp only [hcl] at h
  have hs' : s' =
      { currentGen := cur',
        readers := (((akeys rs').filter (fun g => g < cgen)).foldl
          (fun m g => aerase m g) rs'),
        writerPos := 0, index := idx', uncompacted := 0,
        files := (((akeys rs').filter (fun g => g < cgen)).foldl
          (fun m g => aerase m g) fs') } := by
    cases h
    rfl
  subst hs'
  have hnr2 : (akeys rs').Nodup := by
    rw [hkeysr, hreaders2]
    exact akeys_aupdate_nodup _ _ (akeys_aupdate_nodup _ _ hnr)
  have hnf2 : (akeys fs').Nodup := by
    rw [hkeysf, hfiles2]
    exact akeys_aupdate_nodup _ _ (akeys_aupdate_nodup _ _ hnf)
  set staleGens := (akeys rs').filter (fun g => g < cgen) with hstale
  have hstale_iff : ∀ g, g ∈ staleGens ↔ g ∈ akeys rs' ∧ g < cgen := by
    intro g
    simp [hstale, List.mem_filter]
  have hnot_cgen : cgen ∉ staleGens := by
    rw [hstale_iff]
    omega
  have hnot_cur : cur' ∉ staleGens := by
    rw [hstale_iff]
    omega
  have hsur : ∀ g, g ∉ staleGens →
      alookup (staleGens.foldl (fun m g => aerase m g) rs') g = alookup rs' g :=
    fun g hg => foldl_aerase_alookup_not_mem _ _ _ hg
  have hsurf : ∀ g, g ∉ staleGens →
      alookup (staleGens.foldl (fun m g => aerase m g) fs') g = alookup fs' g :=
    fun g hg => foldl_aerase_alookup_not_mem _ _ _ hg
  have hkill : ∀ g r, alookup (staleGens.foldl (fun m g => aerase m g) rs') g = some r →
      g ∉ staleGens := by
    intro g r hg hmem
    rw [foldl_aerase_alookup_mem _ _ _ hnr2 hmem] at hg
    simp at hg
  have hcgen_mem_rs : cgen ∈ akeys rs' := by
    rw [hkeysr, hreaders2]
    exact (mem_akeys_aupdate _ _ _ _).mpr (Or.inr rfl)
  have hcur_mem_rs : cur' ∈ akeys rs' := by
    rw [hkeysr, hreaders2]
    exact (mem_akeys_aupdate _ _ _ _).mpr
      (Or.inl ((mem_akeys_aupdate _ _ _ _).mpr (Or.inr rfl)))
  have hfile_final_cgen :
      fileOf (staleGens.foldl (fun m g => aerase m g) fs') cgen = fileOf fs' cgen := by
    rw [fileOf, foldl_aerase_alookup_not_mem _ _ _ hnot_cgen, fileOf]
  refine ⟨?_, ?_, ?_, ?_, ?_, ?_, ?_, ?_, ?_, ?_⟩
  · show (0 : Nat) = _
    rw [fileOf, foldl_aerase_alookup_not_mem _ _ _ hnot_cur, hfne cur' (by omega),
      hfiles2, alookup_aupdate_ne _ _ _ _ (by omega : cur' ≠ cgen), alookup_aupdate_self,
      fileOf, hf_cur]
    rfl
  · intro g r hg
    have hns := hkill g r hg
    rw [hsur g hns] at hg
    have hb := hrb' g r hg
    show r.pos ≤ r.cursor ∧ r.cursor ≤ (fileOf _ g).length
    rw [fileOf, hsurf g hns, ← fileOf]
    exact hb
  · show ∃ r, alookup _ cur' = some r
    rw [hsur cur' hnot_cur]
    exact alookup_isSome_of_mem hcur_mem_rs
  · intro k' cp' h'
    have hp := mem_of_alookup h'
    obtain ⟨hg, hbd⟩ := hent (k', cp') hp
    constructor
    · show cp'.start + cp'.length ≤ _
      rw [fileOf, hsurf cp'.gen (by rw [hg]; exact hnot_cgen), ← fileOf, hg, hcf']
      exact hbd
    · show ∃ r, alookup _ cp'.gen = some r
      rw [hg, hsur cgen hnot_cgen]
      exact alookup_isSome_of_mem hcgen_mem_rs
  · intro k' cp' h' hgen
    have hp := mem_of_alookup h'
    have hg := (hent (k', cp') hp).1
    simp only at hgen
    rw [hg] at hgen
    omega
  · intro g hg
    have hmem : g ∈ akeys rs' := (foldl_aerase_sublist _ _).subset hg
    rw [hkeysr, hreaders2] at hmem
    rcases (mem_akeys_aupdate _ _ _ _).mp hmem with hm | hm
    · rcases (mem_akeys_aupdate _ _ _ _).mp hm with hm2 | hm2
      · have := hrg g hm2
        show g ≤ cur'
        omega
      · show g ≤ cur'
        omega
    · show g ≤ cur'
      omega
  · intro g hg
    have hmem : g ∈ akeys fs' := (foldl_aerase_sublist _ _).subset hg
    rw [hkeysf, hfiles2] at hmem
    rcases (mem_akeys_aupdate _ _ _ _).mp hmem with hm | hm
    · rcases (mem_akeys_aupdate _ _ _ _).mp hm with hm2 | hm2
      · have := hfg g hm2
        show g ≤ cur'
        omega
      · show g ≤ cur'
        omega
    · show g ≤ cur'
      omega
  · show (akeys idx').Nodup
    rw [hkeys]
    exact hni
  · exact foldl_aerase_nodup _ _ hnr2
  · exact foldl_aerase_nodup _ _ hnf2

/-- set preserves the engine invariant. -/
theorem inv_set (s s' : KvStore) (k v : String) (hInv : EngineInv s)
    (h : s.set k v = some s') : EngineInv s' := by
  rw [set_unfold] at h
  by_cases hc : (setNoCompact s k v).uncompacted > COMPACTION_THRESHOLD
  · rw [if_pos hc] at h
    exact inv_compact _ _ (inv_setNoCompact s k v hInv) h
  · rw [if_neg hc] at h
    cases h
    exact inv_setNoCompact s k v hInv

theorem alookup_aerase_some {α β : Type} [DecidableEq α] {l : List (α × β)} {a x : α} {b : β}
    (hn : (akeys l).Nodup) (h : alookup (aerase l a) x = some b) : alookup l x = some b := by
  by_cases hx : x = a
  · subst hx
    rw [alookup_aerase_self hn] at h
    cases h
  · rw [alookup_aerase_ne _ _ _ hx] at h
    exact h

/-- remove preserves the engine invariant. -/
theorem inv_remove (s s' : KvStore) (k : String) (res : Except KvsError Unit)
    (hInv : EngineInv s) (h : s.remove k = (res, s')) : EngineInv s' := by
  obtain ⟨hw, hrb, hcr, heb, hce, hrg, hfg, hni, hnr, hnf⟩ := hInv
  rw [KvStore.remove] at h
  cases hlk : alookup s.index k with
  | none =>
    rw [hlk] at h
    cases h
    exact ⟨hw, hrb, hcr, heb, hce, hrg, hfg, hni, hnr, hnf⟩
  | some old =>
    rw [hlk] at h
    cases h
    refine ⟨?_, ?_, hcr, ?_, ?_, hrg, ?_, ?_, hnr, ?_⟩
    · show s.writerPos + _ = _
      rw [fileOf_aupdate_self, List.length_append, hw]
    · intro g r hg
      by_cases hgc : g = s.currentGen
      · subst hgc
        rw [fileOf_aupdate_self]
        have hb := hrb s.currentGen r hg
        refine ⟨hb.1, le_trans hb.2 ?_⟩
        rw [List.length_append]
        omega
      · rw [fileOf_aupdate_ne _ _ _ _ hgc]
        exact hrb g r hg
    · intro k' cp' h'
      have h'' := alookup_aerase_some hni h'
      obtain ⟨hb, hrd⟩ := heb k' cp' h''
      refine ⟨?_, hrd⟩
      by_cases hgc : cp'.gen = s.currentGen
      · rw [hgc, fileOf_aupdate_self, List.length_append]
        rw [hgc] at hb
        omega
      · rw [fileOf_aupdate_ne _ _ _ _ hgc]
        exact hb
    · intro k' cp' h' hgen
      exact hce k' cp' (alookup_aerase_some hni h') hgen
    · intro g hg
      rcases (mem_akeys_aupdate _ _ _ _).mp hg with hg | hg
      · exact hfg g hg
      · exact le_of_eq hg
    · exact akeys_aerase_nodup _ hni
    · exact akeys_aupdate_nodup _ _ hnf

/-- get preserves the engine invariant. -/
theorem inv_get (s s' : KvStore) (k : String) (res : Except KvsError (Option String))
    (hInv : EngineInv s) (h : s.get k = some (res, s')) : EngineInv s' := by
  obtain ⟨hw, hrb, hcr, heb, hce, hrg, hfg, hni, hnr, hnf⟩ := hInv
  rw [KvStore.get] at h
  cases hlk : alookup s.index k with
  | none =>
    simp only [hlk] at h
    cases h
    exact ⟨hw, hrb, hcr, heb, hce, hrg, hfg, hni, hnr, hnf⟩
  | some cp =>
    simp only [hlk] at h
    cases hrd : alookup s.readers cp.gen with
    | none =>
      simp only [hrd] at h
      exact Option.noConfusion h
    | some r =>
      simp only [hrd, Reader.readTake, Reader.seekTo] at h
      have hstart : cp.start ≤ (fileOf s.files cp.gen).length := by
        have := (heb k cp hlk).1
        omega
      set r2 : Reader :=
        ⟨cp.start, cp.start + (readAt (fileOf s.files cp.gen) cp.start cp.length).length⟩
        with hr2
      have hs' : s' = { s with readers := aupdate s.readers cp.gen r2 } := by
        cases hdec : decodeOne (readAt (fileOf s.files cp.gen) cp.start cp.length) with
        | none =>
          rw [hdec] at h
          cases h
          rfl
        | some cmd =>
          rw [hdec] at h
          cases cmd with
          | set kk vv =>
            cases h
            rfl
          | remove kk =>
            cases h
            rfl
      subst hs'
      refine ⟨hw, ?_, ?_, ?_, hce, ?_, hfg, hni, ?_, hnf⟩
      · intro g r' hg
        by_cases hgc : g = cp.gen
        · subst hgc
          rw [alookup_aupdate_self] at hg
          cases hg
          refine ⟨by simp, ?_⟩
          show cp.start + _ ≤ _
          exact readAt_length_le _ _ _ hstart
        · rw [alookup_aupdate_ne _ _ _ _ hgc] at hg
          exact hrb g r' hg
      · by_cases hgc : s.currentGen = cp.gen
        · rw [show ({ s with readers := aupdate s.readers cp.gen r2 } : KvStore).currentGen =
            cp.gen from hgc]
          exact ⟨r2, alookup_aupdate_self _ _ _⟩
        · obtain ⟨r0, hr0⟩ := hcr
          exact ⟨r0, by rw [alookup_aupdate_ne _ _ _ _ hgc]; exact hr0⟩
      · intro k' cp' h'
        obtain ⟨hb, r0, hr0⟩ := heb k' cp' h'
        refine ⟨hb, ?_⟩
        by_cases hgc : cp'.gen = cp.gen
        · rw [hgc]
          exact ⟨r2, alookup_aupdate_self _ _ _⟩
        · rw [alookup_aupdate_ne _ _ _ _ hgc]
          exact ⟨r0, hr0⟩
      · intro g hg
        rw [akeys_aupdate_of_mem _ (mem_akeys_of_alookup hrd)] at hg
        exact hrg g hg
      · rw [akeys_aupdate_of_mem _ (mem_akeys_of_alookup hrd)]
        exact hnr

/-- Entries produced by replaying one segment point into that segment. -/
theorem runLoad_entries (gen : Nat) : ∀ (fuel : Nat) (chars : List Char) (pos : Nat)
    (index : List (String × CommandPos)) (unc : Nat)
    (index' : List (String × CommandPos)) (unc' : Nat), (akeys index).Nodup →
    runLoad gen fuel chars pos index unc = .ok (index', unc') →
    (akeys index').Nodup ∧
    ∀ k cp, alookup index' k = some cp → alookup index k = some cp ∨
      (cp.gen = gen ∧ cp.start + cp.length ≤ pos + chars.length) := by
  intro fuel
  induction fuel with
  | zero =>
    intro chars pos index unc index' unc' hn h
    exact absurd h (by simp [runLoad])
  | succ fuel ih =>
    intro chars pos index unc index' unc' hn h
    cases chars with
    | nil =>
      rw [runLoad] at h
      cases h
      exact ⟨hn, fun k cp h' => Or.inl h'⟩
    | cons c cs =>
      rw [runLoad] at h
      cases hpc : parseCommand (c :: cs) with
      | none =>
        simp only [hpc] at h
        exact Except.noConfusion h
      | some pr =>
        obtain ⟨cmd, rest⟩ := pr
        have hrlen : rest.length ≤ (c :: cs).length :=
          parseCommand_length (c :: cs) cmd rest hpc
        cases cmd with
        | set k' v' =>
          simp only [hpc] at h
          have hmain : ∀ u2, runLoad gen fuel rest (pos + ((c :: cs).length - rest.length))
              (aupdate index k' (CommandPos.new gen pos
                (pos + ((c :: cs).length - rest.length)))) u2 = .ok (index', unc') →
              (akeys index').Nodup ∧
              ∀ k cp, alookup index' k = some cp → alookup index k = some cp ∨
                (cp.gen = gen ∧ cp.start + cp.length ≤ pos + (c :: cs).length) := by
            intro u2 h2
            obtain ⟨hn2, hent⟩ := ih rest _ _ u2 index' unc'
              (akeys_aupdate_nodup _ _ hn) h2
            refine ⟨hn2, ?_⟩
            intro k cp hcp
            rcases hent k cp hcp with hold | hnew
            · by_cases hk : k = k'
              · rw [hk, alookup_aupdate_self] at hold
                cases hold
                right
                refine ⟨rfl, ?_⟩
                rw [CommandPos.new_start, CommandPos.new_length]
                omega
              · rw [alookup_aupdate_ne _ _ _ _ hk] at hold
                exact Or.inl hold
            · right
              exact ⟨hnew.1, by omega⟩
          cases halk : alookup index k' with
          | none =>
            simp only [halk] at h
            exact hmain unc h
          | some old =>
            simp only [halk] at h
            exact hmain (unc + old.length) h
        | remove k' =>
          simp only [hpc] at h
          have hmain : ∀ u2, runLoad gen fuel rest (pos + ((c :: cs).length - rest.length))
              (aerase index k')
              (u2 + (pos + ((c :: cs).length - rest.length) - pos)) = .ok (index', unc') →
              (akeys index').Nodup ∧
              ∀ k cp, alookup index' k = some cp → alookup index k = some cp ∨
                (cp.gen = gen ∧ cp.start + cp.length ≤ pos + (c :: cs).length) := by
            intro u2 h2
            obtain ⟨hn2, hent⟩ := ih rest _ _ _ index' unc' (akeys_aerase_nodup _ hn) h2
            refine ⟨hn2, ?_⟩
            intro k cp hcp
            rcases hent k cp hcp with hold | hnew
            · by_cases hk : k = k'
              · rw [hk, alookup_aerase_self hn] at hold
                exact Option.noConfusion hold
              · rw [alookup_aerase_ne _ _ _ hk] at hold
                exact Or.inl hold
            · right
              exact ⟨hnew.1, by omega⟩
          cases halk : alookup index k' with
          | none =>
            simp only [halk] at h
            exact hmain unc h
          | some old =>
            simp only [halk] at h
            exact hmain (unc + old.length) h

/-- The replay loop of open: reader and index shape after replaying a list of
generations. -/
theorem openLoop_spec (files : List (Nat × List Char)) : ∀ (gens : List Nat)
    (readers : List (Nat × Reader)) (index : List (String × CommandPos)) (unc : Nat)
    (readers' : List (Nat × Reader)) (index' : List (String × CommandPos)) (unc' : Nat),
    (akeys index).Nodup →
    openLoop files gens readers index unc = .ok (readers', index', unc') →
    (akeys index').Nodup ∧
    (∀ g, g ∈ akeys readers' ↔ g ∈ akeys readers ∨ g ∈ gens) ∧
    ((akeys readers).Nodup → (akeys readers').Nodup) ∧
    (∀ g r, alookup readers' g = some r → alookup readers g = some r ∨
      (r.pos = 0 ∧ r.cursor = (fileOf files g).length)) ∧
    (∀ k cp, alookup index' k = some cp → alookup index k = some cp ∨
      (cp.gen ∈ gens ∧ cp.start + cp.length ≤ (fileOf files cp.gen).length)) := by
  intro gens
  induction gens with
  | nil =>
    intro readers index unc readers' index' unc' hn h
    rw [openLoop] at h
    cases h
    exact ⟨hn, fun g => by simp, fun hr => hr, fun g r h' => Or.inl h',
      fun k cp h' => Or.inl h'⟩
  | cons gen gens ih =>
    intro readers index unc readers' index' unc' hn h
    rw [openLoop] at h
    cases hrl : runLoad gen ((fileOf files gen).length + 1) (fileOf files gen) 0 index 0 with
    | error e =>
      simp only [hrl] at h
      exact Except.noConfusion h
    | ok out =>
      obtain ⟨index2, du⟩ := out
      simp only [hrl] at h
      obtain ⟨hn2, hent2⟩ := runLoad_entries gen _ _ _ index 0 index2 du hn hrl
      obtain ⟨hn', hkiff, hnr', hrv, hent⟩ := ih _ index2 _ readers' index' unc' hn2 h
      refine ⟨hn', ?_, ?_, ?_, ?_⟩
      · intro g
        rw [hkiff g, mem_akeys_aupdate]
        simp only [List.mem_cons]
        tauto
      · intro hr
        exact hnr' (akeys_aupdate_nodup _ _ hr)
      · intro g r h'
        rcases hrv g r h' with hold | hnew
        · by_cases hg : g = gen
          · subst hg
            rw [alookup_aupdate_self] at hold
            cases hold
            exact Or.inr ⟨rfl, rfl⟩
          · rw [alookup_aupdate_ne _ _ _ _ hg] at hold
            exact Or.inl hold
        · exact Or.inr hnew
      · intro k cp h'
        rcases hent k cp h' with hold | hnew
        · rcases hent2 k cp hold with hold2 | hnew2
          · exact Or.inl hold2
          · exact Or.inr ⟨by simp [hnew2.1], by have := hnew2.2; simpa [hnew2.1] using this⟩
        · exact Or.inr ⟨List.mem_cons_of_mem _ hnew.1, hnew.2⟩

theorem sorted_le_getLast (l : List Nat) (hs : l.Sorted (· ≤ ·)) :
    ∀ x ∈ l, x ≤ l.getLast?.getD 0 := by
  induction l with
  | nil => simp
  | cons a tl ih =>
    rw [List.sorted_cons] at hs
    intro x hx
    cases tl with
    | nil =>
      simp at hx
      subst hx
      simp
    | cons b tl' =>
      rw [List.getLast?_cons_cons]
      rcases List.mem_cons.mp hx with hx | hx
      · subst hx
        have hab : x ≤ b := hs.1 b (List.mem_cons_self _ _)
        have := ih hs.2 b (List.mem_cons_self _ _)
        omega
      · exact ih hs.2 x hx

/-- Opening a directory with uniquely named segments yields a state satisfying
the engine invariant. -/
theorem inv_open (files : List (Nat × List Char)) (s : KvStore)
    (hnf : (akeys files).Nodup) (h : openStore files = .ok s) : EngineInv s := by
  rw [openStore] at h
  set genList := List.insertionSort (· ≤ ·) (akeys files) with hgl
  cases hol : openLoop files genList [] [] 0 with
  | error e =>
    simp only [hol] at h
    exact Except.noConfusion h
  | ok out =>
    obtain ⟨readers1, index1, unc1⟩ := out
    simp only [hol, newLogFile] at h
    set cg := genList.getLast?.getD 0 + 1 with hcg
    have hs : s =
        { currentGen := cg, readers := aupdate readers1 cg ⟨0, 0⟩, writerPos := 0,
          index := index1, uncompacted := unc1,
          files := aupdate files cg (fileOf files cg) } := by
      cases h
      rfl
    subst hs
    have hperm : genList.Perm (akeys files) := List.perm_insertionSort _ _
    have hsorted : genList.Sorted (· ≤ ·) := List.sorted_insertionSort _ _
    have hmax : ∀ g ∈ genList, g < cg := by
      intro g hg
      have := sorted_le_getLast genList hsorted g hg
      omega
    have hcg_not : cg ∉ akeys files := by
      intro hm
      have hmem : cg ∈ genList := hperm.mem_iff.mpr hm
      have := hmax cg hmem
      omega
    have hfcg : fileOf files cg = [] := by
      rw [fileOf, alookup_eq_none hcg_not]
      rfl
    obtain ⟨hn1, hkiff, hnr1, hrv, hent⟩ :=
      openLoop_spec files genList [] [] 0 readers1 index1 unc1 (by simp [akeys]) hol
    refine ⟨?_, ?_, ?_, ?_, ?_, ?_, ?_, hn1, ?_, ?_⟩
    · show (0 : Nat) = _
      rw [fileOf_aupdate_self, hfcg]
      rfl
    · intro g r hg
      by_cases hgc : g = cg
      · subst hgc
        rw [alookup_aupdate_self] at hg
        cases hg
        exact ⟨le_refl 0, Nat.zero_le _⟩
      · rw [alookup_aupdate_ne _ _ _ _ hgc] at hg
        rcases hrv g r hg with hold | hnew
        · rw [show alookup ([] : List (Nat × Reader)) g = none from rfl] at hold
          exact Option.noConfusion hold
        · rw [fileOf_aupdate_ne _ _ _ _ hgc]
          rw [hnew.1, hnew.2]
          exact ⟨Nat.zero_le _, le_refl _⟩
    · exact ⟨_, alookup_aupdate_self _ _ _⟩
    · intro k cp h'
      rcases hent k cp h' with hold | hnew
      · rw [show alookup ([] : List (String × CommandPos)) k = none from rfl] at hold
        exact Option.noConfusion hold
      · have hlt : cp.gen < cg := hmax cp.gen hnew.1
        constructor
        · rw [fileOf_aupdate_ne _ _ _ _ (by omega : cp.gen ≠ cg)]
          exact hnew.2
        · have hmem : cp.gen ∈ akeys readers1 := (hkiff cp.gen).mpr (Or.inr hnew.1)
          obtain ⟨r, hr⟩ := alookup_isSome_of_mem hmem
          refine ⟨r, ?_⟩
          rw [alookup_aupdate_ne _ _ _ _ (by omega : cp.gen ≠ cg)]
          exact hr
    · intro k cp h' hgen
      rcases hent k cp h' with hold | hnew
      · rw [show alookup ([] : List (String × CommandPos)) k = none from rfl] at hold
        exact Option.noConfusion hold
      · have hlt : cp.gen < cg := hmax cp.gen hnew.1
        simp only at hgen
        omega
    · intro g hg
      rcases (mem_akeys_aupdate _ _ _ _).mp hg with hm | hm
      · rcases (hkiff g).mp hm with hm2 | hm2
        · simp [akeys] at hm2
        · have := hmax g hm2
          show g ≤ cg
          omega
      · show g ≤ cg
        omega
    · intro g hg
      rcases (mem_akeys_aupdate _ _ _ _).mp hg with hm | hm
      · have hmem : g ∈ genList := hperm.mem_iff.mpr hm
        have := hmax g hmem
        show g ≤ cg
        omega
      · show g ≤ cg
        omega
    · exact akeys_aupdate_nodup _ _ (hnr1 (by simp [akeys]))
    · exact akeys_aupdate_nodup _ _ hnf

/-- Every reachable state satisfies the engine invariant. -/
theorem reachable_inv (s : KvStore) (h : Reachable s) : EngineInv s := by
  induction h with
  | openInit s' h => exact inv_open [] s' (by simp [akeys]) h
  | reopen t s' _ h iht => exact inv_open t.files s' iht.filesNodup h
  | doSet t s' k v _ h iht => exact inv_set t s' k v iht h
  | doGet t s' k r _ h iht => exact inv_get t s' k r iht h
  | doRemove t s' k r _ h iht => exact inv_remove t s' k r iht h

/-- After a successful remove, get answers Ok(None). -/
theorem remove_get (s s' : KvStore) (k : String) (hInv : EngineInv s)
    (h : s.remove k = (Except.ok (), s')) : s'.get k = some (Except.ok none, s') := by
  obtain ⟨hw, hrb, hcr, heb, hce, hrg, hfg, hni, hnr, hnf⟩ := hInv
  rw [KvStore.remove] at h
  cases hlk : alookup s.index k with
  | none =>
    rw [hlk] at h
    cases h
  | some old =>
    rw [hlk] at h
    cases h
    rw [KvStore.get]
    have : alookup (aerase s.index k) k = none := alookup_aerase_self hni
    simp only [this]

/-- After a successful set, get answers Ok(Some v), whether or not the set
triggered compaction. -/
theorem set_get (s s' : KvStore) (k v : String) (hInv : EngineInv s)
    (h : s.set k v = some s') : ∃ t, s'.get k = some (Except.ok (some v), t) := by
  have hInvT := inv_setNoCompact s k v hInv
  obtain ⟨hw, hrb, hcr, heb, hce, hrg, hfg, hni, hnr, hnf⟩ := hInv
  rw [set_unfold] at h
  set L := (encodeCommand (Command.set k v)).length with hL
  set cp0 := CommandPos.new s.currentGen s.writerPos (s.writerPos + L) with hcp0
  set t := setNoCompact s k v with ht
  have ht_cur : t.currentGen = s.currentGen := rfl
  have ht_readers : t.readers = s.readers := rfl
  have ht_index : t.index = aupdate s.index k cp0 := rfl
  have ht_files : t.files =
      aupdate s.files s.currentGen
        (fileOf s.files s.currentGen ++ encodeCommand (Command.set k v)) := rfl
  have hcp0_gen : cp0.gen = s.currentGen := rfl
  have hcp0_start : cp0.start = s.writerPos := rfl
  have hcp0_len : cp0.length = L := by
    rw [hcp0, CommandPos.new_length]
    omega
  have hfile_t_cur : fileOf t.files s.currentGen =
      fileOf s.files s.currentGen ++ encodeCommand (Command.set k v) := by
    rw [ht_files, fileOf_aupdate_self]
  have hdecode : decodeOne (readAt (fileOf t.files cp0.gen) cp0.start cp0.length) =
      some (Command.set k v) := by
    rw [hcp0_gen, hfile_t_cur, hcp0_start, hcp0_len, hL, hw, readAt_append_right]
    exact decodeOne_encode (Command.set k v)
  by_cases hc : t.uncompacted > COMPACTION_THRESHOLD
  · rw [if_pos hc] at h
    -- compaction branch
    obtain ⟨hwT, hrbT, hcrT, hebT, hceT, hrgT, hfgT, hniT, hnrT, hnfT⟩ := hInvT
    rw [compact_unfold] at h
    set cgen := t.currentGen + 1 with hcgen
    set cur' := t.currentGen + 2 with hcur
    set readers2 := aupdate (aupdate t.readers cur' { pos := 0, cursor := 0 }) cgen
      { pos := 0, cursor := 0 } with hreaders2
    set files2 := aupdate (aupdate t.files cur' (fileOf t.files cur')) cgen
      (fileOf (aupdate t.files cur' (fileOf t.files cur')) cgen) with hfiles2
    have hf_cgen : alookup t.files cgen = none :=
      alookup_eq_none (fun hm => by have := hfgT _ hm; omega)
    have hf_cur : alookup t.files cur' = none :=
      alookup_eq_none (fun hm => by have := hfgT _ hm; omega)
    have hfile1_cgen : fileOf (aupdate t.files cur' (fileOf t.files cur')) cgen = [] := by
      rw [fileOf_aupdate_ne _ _ _ _ (by omega : cgen ≠ cur'), fileOf, hf_cgen]
      rfl
    have hfile2_cgen : fileOf files2 cgen = [] := by
      rw [hfiles2, fileOf_aupdate_self, hfile1_cgen]
    have hfile2_ne : ∀ g, g ≠ cgen → g ≠ cur' → fileOf files2 g = fileOf t.files g := by
      intro g h1 h2
      rw [hfiles2, fileOf_aupdate_ne _ _ _ _ h1, fileOf_aupdate_ne _ _ _ _ h2]
    have hcf2 : (fileOf files2 cgen).length = 0 := by rw [hfile2_cgen]; rfl
    have hcm2 : cgen ∈ akeys files2 := (mem_akeys_aupdate _ _ _ _).mpr (Or.inr rfl)
    have hrb2 : ∀ g r, alookup readers2 g = some r →
        r.pos ≤ r.cursor ∧ r.cursor ≤ (fileOf files2 g).length := by
      intro g r hg
      by_cases h1 : g = cgen
      · subst h1
        rw [hreaders2, alookup_aupdate_self] at hg
        cases hg
        exact ⟨le_refl 0, Nat.zero_le _⟩
      · by_cases h2 : g = cur'
        · subst h2
          rw [hreaders2, alookup_aupdate_ne _ _ _ _ (by omega : cur' ≠ cgen),
            alookup_aupdate_self] at hg
          cases hg
          exact ⟨le_refl 0, Nat.zero_le _⟩
        · rw [hreaders2, alookup_aupdate_ne _ _ _ _ h1, alookup_aupdate_ne _ _ _ _ h2] at hg
          rw [hfile2_ne g h1 h2]
          exact hrbT g r hg
    have hmem_lookupT : ∀ p ∈ t.index, alookup t.index p.1 = some p.2 :=
      fun p hp => alookup_of_mem_nodup hniT hp
    have hgen_leT : ∀ p ∈ t.index, p.2.gen ≤ t.currentGen := by
      intro p hp
      obtain ⟨_, r, hr⟩ := hebT p.1 p.2 (hmem_lookupT p hp)
      exact hrgT _ (mem_akeys_of_alookup hr)
    obtain ⟨pre, post, hsplit, hsub, hpre⟩ := aupdate_split s.index k cp0
    have hidx_eq : t.index = pre ++ (k, cp0) :: post := by rw [ht_index, hsplit]
    have hmem_t : ∀ p, p ∈ pre ++ (k, cp0) :: post → p ∈ t.index := by
      intro p hp
      rw [hidx_eq]
      exact hp
    have heg2 : ∀ p ∈ pre ++ (k, cp0) :: post, p.2.gen ≠ cgen := by
      intro p hp
      have := hgen_leT p (hmem_t p hp)
      omega
    have heb2 : ∀ p ∈ pre ++ (k, cp0) :: post,
        p.2.start + p.2.length ≤ (fileOf files2 p.2.gen).length := by
      intro p hp
      have hple := hgen_leT p (hmem_t p hp)
      rw [hfile2_ne _ (by omega) (by omega)]
      exact (hebT p.1 p.2 (hmem_lookupT p (hmem_t p hp))).1
    have her2 : ∀ p ∈ pre ++ (k, cp0) :: post, ∃ r, alookup readers2 p.2.gen = some r := by
      intro p hp
      have hple := hgen_leT p (hmem_t p hp)
      obtain ⟨_, r, hr⟩ := hebT p.1 p.2 (hmem_lookupT p (hmem_t p hp))
      refine ⟨r, ?_⟩
      rw [hreaders2, alookup_aupdate_ne _ _ _ _ (by omega),
        alookup_aupdate_ne _ _ _ _ (by omega)]
      exact hr
    have hoth : ∀ p ∈ pre ++ post, p.2.gen = cp0.gen → p.2.start < cp0.start := by
      intro p hp hpgen
      have hpmem : p ∈ s.index := hsub.subset hp
      have hpl : alookup s.index p.1 = some p.2 := alookup_of_mem_nodup hni hpmem
      have hb := (heb p.1 p.2 hpl).1
      have hl := hce p.1 p.2 hpl (by rw [← hcp0_gen]; exact hpgen)
      rw [hpgen, hcp0_gen, ← hw] at hb
      rw [hcp0_start]
      omega
    have hJ : ∀ r0, alookup readers2 cp0.gen = some r0 → r0.pos = cp0.start →
        r0.cursor = cp0.start := by
      intro r0 hr0 hp0
      rw [hreaders2, hcp0_gen,
        alookup_aupdate_ne _ _ _ _ (by omega : s.currentGen ≠ cgen),
        alookup_aupdate_ne _ _ _ _ (by omega : s.currentGen ≠ cur'),
        ht_readers] at hr0
      have hb := hrb s.currentGen r0 hr0
      rw [← hw] at hb
      rw [hcp0_start] at hp0 ⊢
      omega
    have htail2 : cp0.start + cp0.length = (fileOf files2 cp0.gen).length := by
      rw [hfile2_ne cp0.gen (by omega) (by omega)]
      rw [hcp0_gen, hfile_t_cur, hcp0_start, hcp0_len, List.length_append, hw, hL]
    obtain ⟨idx', rs', fs', np', npk, hcl, hidxk, hchunk, hnpk, hcf', hkeysr⟩ :=
      compactLoop_tracked cgen k cp0 pre post readers2 files2 0 hcf2 hcm2 hrb2 heg2
        heb2 her2 hoth hJ htail2 hpre
    rw [hidx_eq] at h
    simp only [hcl] at h
    have hs' : s' =
        { currentGen := cur',
          readers := (((akeys rs').filter (fun g => g < cgen)).foldl
            (fun m g => aerase m g) rs'),
          writerPos := 0, index := idx', uncompacted := 0,
          files := (((akeys rs').filter (fun g => g < cgen)).foldl
            (fun m g => aerase m g) fs') } := by
      cases h
      rfl
    subst hs'
    have hnr2 : (akeys rs').Nodup := by
      rw [hkeysr, hreaders2]
      exact akeys_aupdate_nodup _ _ (akeys_aupdate_nodup _ _ hnrT)
    set staleGens := (akeys rs').filter (fun g => g < cgen) with hstale
    have hnot_cgen : cgen ∉ staleGens := by
      rw [hstale]
      simp [List.mem_filter]
    have hcgen_mem_rs : cgen ∈ akeys rs' := by
      rw [hkeysr, hreaders2]
      exact (mem_akeys_aupdate _ _ _ _).mpr (Or.inr rfl)
    obtain ⟨rg, hrg2⟩ := alookup_isSome_of_mem hcgen_mem_rs
    have hrdr : alookup (staleGens.foldl (fun m g => aerase m g) rs') cgen = some rg := by
      rw [foldl_aerase_alookup_not_mem _ _ _ hnot_cgen]
      exact hrg2
    have hentry : alookup idx' k = some (CommandPos.new cgen npk (npk + cp0.length)) := hidxk
    have hlen_eq : (CommandPos.new cgen npk (npk + cp0.length)).length = cp0.length := by
      rw [CommandPos.new_length]
      omega
    have hfile_final : fileOf (staleGens.foldl (fun m g => aerase m g) fs') cgen =
        fileOf fs' cgen := by
      rw [fileOf, foldl_aerase_alookup_not_mem _ _ _ hnot_cgen, fileOf]
    have hdec' : decodeOne (readAt
        (fileOf (staleGens.foldl (fun m g => aerase m g) fs') cgen) npk cp0.length) =
        some (Command.set k v) := by
      rw [hfile_final, hchunk, hfile2_ne cp0.gen (by omega) (by omega)]
      exact hdecode
    refine get_eq _ k k v (CommandPos.new cgen npk (npk + cp0.length)) rg hentry ?_ ?_
    · rw [CommandPos.new_gen]
      exact hrdr
    · rw [CommandPos.new_gen, CommandPos.new_start, hlen_eq]
      exact hdec'
  · rw [if_neg hc] at h
    injection h with h2
    subst h2
    obtain ⟨r, hr⟩ := hcr
    refine get_eq _ k k v cp0 r ?_ ?_ ?_
    · rw [ht_index]
      exact alookup_aupdate_self _ _ _
    · rw [hcp0_gen, ht_readers]
      exact hr
    · exact hdecode

/-- C1: on every reachable engine state, immediately after a successful
set(k, v) a get(k) returns Ok(Some v) — also when the set triggered
compaction — and immediately after a successful remove(k) a get(k) returns
Ok(None). -/
theorem c1_set_get_remove_round_trip (s : KvStore) (k v : String)
    (hreach : Reachable s) :
    (∀ s', s.set k v = some s' → ∃ t, s'.get k = some (Except.ok (some v), t)) ∧
    (∀ s', s.remove k = (Except.ok (), s') → s'.get k = some (Except.ok none, s')) := by
  have hInv := reachable_inv s hreach
  exact ⟨fun s' h => set_get s s' k v hInv h, fun s' h => remove_get s s' k hInv h⟩

/-- Witness for C1 on the store opened from a fresh directory. -/
theorem c1_witness :
    storeA.set "a" "x" = some storeB ∧
    (∃ t, storeB.get "a" = some (Except.ok (some "x"), t)) ∧
    storeB.remove "a" = (Except.ok (), (storeB.remove "a").2) ∧
    (storeB.remove "a").2.get "a" = some (Except.ok none, (storeB.remove "a").2) := by
  have hreach : Reachable storeA := Reachable.openInit storeA rfl
  have h1 := (c1_set_get_remove_round_trip storeA "a" "x" hreach).1 storeB rfl
  have hreachB : Reachable storeB := Reachable.doSet storeA storeB "a" "x" hreach rfl
  have h2 := (c1_set_get_remove_round_trip storeB "a" "x" hreachB).2
    (storeB.remove "a").2 rfl
  exact ⟨rfl, h1, rfl, h2⟩
